import Mathlib

/-!
Verification model of the collectd-cloudwatch whitelist module
(`src/cloudwatch/modules/configuration/whitelist.py`).

The Python module has three classes:

* `WhitelistConfigReader` parses `whitelist.conf` into a list of validated,
  anchor-wrapped regex strings (with a `["^$"]` fallback);
* `BlockedMetricLogger` keeps an append-only audit log of rejected metrics;
* `Whitelist` joins the pattern list with `"|"`, compiles it once, and
  memoizes per-metric verdicts, logging first-time rejections.

The code works on regex *strings* and compiles them with Python 2 `re`.  We
embed the fragment of the Python 2 regex language that the module and its
configuration files use: literal characters, escapes, the `\s`/`\d`/`\w`
classes, character classes with ranges, `.`, the quantifiers `* + ?` (with
non-greedy variants), grouping, alternation and the `^`/`$` anchors, with
Python's un-flagged (single-line) anchor semantics, including the detail that
`$` also matches just before a trailing newline.  Constructs outside the
fragment (e.g. `{m,n}` counted repeats, named groups, backreferences) make
the embedded compiler return `none`; all general theorems below either take
compilation success as a hypothesis or are stated about inputs inside the
fragment.
-/

set_option maxRecDepth 4000

namespace CollectdWhitelist

/-! ### Python 2 `string.strip` -/

/-- The characters Python 2 `str.strip()` removes (`string.whitespace`). -/
def isPyWs (c : Char) : Bool :=
  c = ' ' || c = '\t' || c = '\n' || c = '\x0d' || c = '\x0b' || c = '\x0c'

/-- Strip leading and trailing Python whitespace from a character list. -/
def pyStripList (cs : List Char) : List Char :=
  ((cs.dropWhile isPyWs).reverse.dropWhile isPyWs).reverse

/-- Model of Python 2 `str.strip()`. -/
def pyStrip (s : String) : String := String.mk (pyStripList s.data)

/-! ### Regex abstract syntax and matching semantics -/

/-- One member of a character class `[...]`. -/
inductive ClassItem where
  | single (c : Char)
  | range (lo hi : Char)
  | perlWs
  | perlNotWs
  | perlDigit
  | perlNotDigit
  | perlWord
  | perlNotWord
deriving DecidableEq, Repr

/-- Abstract syntax of the embedded regex fragment.  `r+` and `r?` are
desugared at parse time (`r+` to `cat r (star r)`, `r?` to `alt r eps`);
greediness does not affect match existence, which is all `re.match`'s
truthiness observes. -/
inductive Regex where
  | eps
  | char (c : Char)
  | dot
  | cls (neg : Bool) (items : List ClassItem)
  | bol
  | eol
  | cat (r₁ r₂ : Regex)
  | alt (r₁ r₂ : Regex)
  | star (r : Regex)
deriving DecidableEq, Repr

def ClassItem.holds : ClassItem → Char → Bool
  | .single a, c => c = a
  | .range lo hi, c => lo ≤ c && c ≤ hi
  | .perlWs, c => isPyWs c
  | .perlNotWs, c => !isPyWs c
  | .perlDigit, c => c.isDigit
  | .perlNotDigit, c => !c.isDigit
  | .perlWord, c => c.isAlphanum || c = '_'
  | .perlNotWord, c => !(c.isAlphanum || c = '_')

def classHolds (neg : Bool) (items : List ClassItem) (c : Char) : Bool :=
  if neg then !(items.any fun it => it.holds c) else items.any fun it => it.holds c

/--
`ends r s i` is the list of all positions `j` such that `r` matches the
slice of `s` from position `i` to position `j` (duplicates allowed).
Anchors follow un-flagged Python semantics: `^` matches only at position 0,
`$` matches at the end of the string or just before a final newline.
The `star` case computes the reachable-position closure; since positions are
bounded by `s.length`, iterating the expansion step `s.length + 1` times
reaches the fixpoint.
-/
def ends : Regex → List Char → Nat → List Nat
  | .eps, _, i => [i]
  | .char c, s, i => if i < s.length ∧ s.getD i ' ' = c then [i + 1] else []
  | .dot, s, i => if i < s.length ∧ s.getD i ' ' ≠ '\n' then [i + 1] else []
  | .cls neg items, s, i =>
      if i < s.length ∧ classHolds neg items (s.getD i ' ') = true then [i + 1] else []
  | .bol, _, i => if i = 0 then [i] else []
  | .eol, s, i =>
      if i = s.length ∨ (i + 1 = s.length ∧ s.getD i ' ' = '\n') then [i] else []
  | .cat r₁ r₂, s, i => (ends r₁ s i).flatMap fun k => ends r₂ s k
  | .alt r₁ r₂, s, i => ends r₁ s i ++ ends r₂ s i
  | .star r, s, i =>
      (fun ps => (ps ++ ps.flatMap fun k => ends r s k).dedup)^[s.length + 1] [i]

/-- Truthiness of Python `compiled.match(s)`: some match starting at 0. -/
def reMatch (r : Regex) (s : String) : Bool := !(ends r s.data 0).isEmpty

/-- Whether `r` matches all of `s` (a full-string match). -/
def reFullmatch (r : Regex) (s : String) : Bool :=
  decide (s.data.length ∈ ends r s.data 0)

/-! ### The regex string parser (model of `re.compile` on the fragment) -/

def isQuantChar (c : Char) : Bool := c = '*' || c = '+' || c = '?'

/-- Escapes outside classes.  Unknown alphanumeric escapes (backreferences,
word boundaries, ...) are outside the fragment and fail. -/
def parseEscape (c : Char) : Option Regex :=
  if c = 's' then some (.cls false [.perlWs])
  else if c = 'S' then some (.cls true [.perlWs])
  else if c = 'd' then some (.cls false [.perlDigit])
  else if c = 'D' then some (.cls true [.perlDigit])
  else if c = 'w' then some (.cls false [.perlWord])
  else if c = 'W' then some (.cls true [.perlWord])
  else if c = 'n' then some (.char '\n')
  else if c = 't' then some (.char '\t')
  else if c = 'r' then some (.char '\x0d')
  else if c.isAlphanum then none
  else some (.char c)

/-- Escapes inside character classes. -/
def parseClassEscape (c : Char) : Option ClassItem :=
  if c = 's' then some .perlWs
  else if c = 'S' then some .perlNotWs
  else if c = 'd' then some .perlDigit
  else if c = 'D' then some .perlNotDigit
  else if c = 'w' then some .perlWord
  else if c = 'W' then some .perlNotWord
  else if c = 'n' then some (.single '\n')
  else if c = 't' then some (.single '\t')
  else if c = 'r' then some (.single '\x0d')
  else if c.isAlphanum then none
  else some (.single c)

/-- Parse the members of a character class up to the closing `]`.
A `-` directly before `]` is a literal; `a-b` with `a ≤ b` is a range. -/
def parseClassItems : List Char → Option (List ClassItem × List Char)
  | [] => none
  | ']' :: rest => some ([], rest)
  | '\\' :: [] => none
  | '\\' :: e :: rest₂ =>
      match parseClassEscape e, parseClassItems rest₂ with
      | some it, some (items, rem) => some (it :: items, rem)
      | _, _ => none
  | c :: '-' :: ']' :: rest₂ => some ([ClassItem.single c, ClassItem.single '-'], rest₂)
  | _ :: '-' :: '\\' :: _ => none
  | c :: '-' :: d :: rest₂ =>
      if c ≤ d then
        match parseClassItems rest₂ with
        | some (items, rem) => some (ClassItem.range c d :: items, rem)
        | none => none
      else none
  | c :: rest =>
      match parseClassItems rest with
      | some (items, rem) => some (ClassItem.single c :: items, rem)
      | none => none

/-- Parse a class body (input starts after `[`): optional `^` negation,
with a leading `]` taken literally, as in Python. -/
def parseClass (cs : List Char) : Option (Regex × List Char) :=
  match cs with
  | '^' :: ']' :: rest =>
      match parseClassItems rest with
      | some (items, rem) => some (.cls true (ClassItem.single ']' :: items), rem)
      | none => none
  | '^' :: rest =>
      match parseClassItems rest with
      | some (items, rem) => some (.cls true items, rem)
      | none => none
  | ']' :: rest =>
      match parseClassItems rest with
      | some (items, rem) => some (.cls false (ClassItem.single ']' :: items), rem)
      | none => none
  | rest =>
      match parseClassItems rest with
      | some (items, rem) => some (.cls false items, rem)
      | none => none

def isAnchor : Regex → Bool
  | .bol => true
  | .eol => true
  | _ => false

def applyQuant (a : Regex) (q : Char) : Regex :=
  if q = '*' then .star a
  else if q = '+' then .cat a (.star a)
  else .alt a .eps

/-- Parse an optional postfix quantifier (with optional non-greedy `?`).
Quantifying an anchor or stacking quantifiers is an error in Python 2
(`nothing to repeat` / `multiple repeat`). -/
def parseQuant (a : Regex) (cs : List Char) : Option (Regex × List Char) :=
  match cs with
  | [] => some (a, [])
  | q :: rest =>
      if isQuantChar q then
        if isAnchor a then none
        else
          let rest₂ := match rest with
            | '?' :: rest' => rest'
            | _ => rest
          match rest₂ with
          | [] => some (applyQuant a q, [])
          | d :: _ => if isQuantChar d then none else some (applyQuant a q, rest₂)
      else some (a, cs)

mutual

/-- Parse an alternation (sequences separated by top-level `|`). -/
def parseAlt : Nat → List Char → Option (Regex × List Char)
  | 0, _ => none
  | f + 1, cs =>
      match parseSeq f cs with
      | none => none
      | some (r₁, rem₁) =>
          match rem₁ with
          | '|' :: rest =>
              match parseAlt f rest with
              | none => none
              | some (r₂, rem₂) => some (.alt r₁ r₂, rem₂)
          | _ => some (r₁, rem₁)

/-- Parse a concatenation of quantified atoms, stopping at `|`, `)` or
end of input. -/
def parseSeq : Nat → List Char → Option (Regex × List Char)
  | 0, _ => none
  | f + 1, cs =>
      match cs with
      | [] => some (.eps, [])
      | c :: _ =>
          if c = '|' ∨ c = ')' then some (.eps, cs)
          else
            match parseAtom f cs with
            | none => none
            | some (a, rem₁) =>
                match parseQuant a rem₁ with
                | none => none
                | some (a₂, rem₂) =>
                    match parseSeq f rem₂ with
                    | none => none
                    | some (r, rem₃) => some (.cat a₂ r, rem₃)

/-- Parse one atom.  `(?...` extension groups are outside the fragment. -/
def parseAtom : Nat → List Char → Option (Regex × List Char)
  | 0, _ => none
  | f + 1, cs =>
      match cs with
      | [] => none
      | c :: rest =>
          if c = '^' then some (.bol, rest)
          else if c = '$' then some (.eol, rest)
          else if c = '.' then some (.dot, rest)
          else if c = '(' then
            match rest with
            | '?' :: _ => none
            | _ =>
                match parseAlt f rest with
                | none => none
                | some (r, rem) =>
                    match rem with
                    | ')' :: rest₂ => some (r, rest₂)
                    | _ => none
          else if c = '[' then parseClass rest
          else if c = '\\' then
            match rest with
            | [] => none
            | e :: rest₂ =>
                match parseEscape e with
                | none => none
                | some r => some (r, rest₂)
          else if isQuantChar c then none
          else some (.char c, rest)

end

/-- Fuel that always suffices: the parser consumes at least one character
for every three nested calls. -/
def parseFuel (s : String) : Nat := 3 * s.length + 3

/-- Model of `re.compile` on the embedded fragment: `some r` iff the whole
string parses; `none` models both a Python `re.error` and a pattern outside
the fragment. -/
def re_compile (s : String) : Option Regex :=
  match parseAlt (parseFuel s) s.data with
  | some (r, []) => some r
  | _ => none

/-- Model of Python 2 `"|".join`. -/
def joinBar : List String → String
  | [] => ""
  | [p] => p
  | p :: ps => p ++ "|" ++ joinBar ps

/-! ### `WhitelistConfigReader` -/

/-- `WhitelistConfigReader.PASS_THROUGH_REGEX_STRING`: detects `.*`/`.+`
pass-through rules. -/
def PASS_THROUGH_REGEX_STRING : String :=
  "^\\.[\\*\\+]?\\s.*$|^.*?\\s\\.[\\*\\+]|^\\.[\\*\\+]$"

/-- The compiled `self.pass_through_regex`. -/
def pass_through_regex : Regex := (re_compile PASS_THROUGH_REGEX_STRING).getD .eps

namespace WhitelistConfigReader

def NO_SUCH_FILE : Nat := 2
def START_STRING : String := "^"
def END_STRING : String := "$"
def EMPTY_REGEX : String := START_STRING ++ END_STRING

/-- `WhitelistConfigReader._decorate_regex_line`. -/
def _decorate_regex_line (line : String) : String :=
  START_STRING ++ pyStrip line ++ END_STRING

/-- `WhitelistConfigReader._is_allowed_regex`: the pass-through safety
policy, applied before any compile attempt. -/
def _is_allowed_regex (pass_through_allowed : Bool) (regex_string : String) : Bool :=
  if pass_through_allowed then true
  else if reMatch pass_through_regex regex_string then false
  else true

/-- `WhitelistConfigReader._is_valid_regex`: safety policy first, then a
compile attempt on the anchor-wrapped line; a compile error (modelled as
`none`) is caught and yields `false`. -/
def _is_valid_regex (pass_through_allowed : Bool) (regex_string : String) : Bool :=
  _is_allowed_regex pass_through_allowed regex_string
    && (re_compile (_decorate_regex_line regex_string)).isSome

/-- `WhitelistConfigReader._filter_valid_regexes` (the list comprehension
plus the `or [EMPTY_REGEX]` fallback). -/
def _filter_valid_regexes (pass_through_allowed : Bool) (regex_list : List String) :
    List String :=
  let valid_regexes :=
    (regex_list.filter (_is_valid_regex pass_through_allowed)).map _decorate_regex_line
  if valid_regexes.isEmpty then [EMPTY_REGEX] else valid_regexes

/-- The states the whitelist configuration file can be in.  `present lines`
holds the file's lines with trailing newlines already split off (iterating
a Python file yields lines with their newline, which `strip` removes, so
nothing is lost).  `absent` makes `open` fail with `errno == ENOENT`;
`unreadable` models any other `IOError` (e.g. `EACCES`). -/
inductive FileState where
  | present (lines : List String)
  | absent
  | unreadable
deriving DecidableEq

/-- Opening and reading the file, as an explicit `Except` so that the
error-handling paths of `get_regex_list` are visible. -/
def readLines : FileState → Except Nat (List String)
  | .present lines => .ok lines
  | .absent => .error NO_SUCH_FILE
  | .unreadable => .error 13

/-- `os.path.exists` on the whitelist path. -/
def path_exists : FileState → Bool
  | .absent => false
  | _ => true

/-- `WhitelistConfigReader._create_whitelist_file`: when the path does not
exist, opens it for write to create it empty.  The existence check means an
existing file is never touched (and nothing can fail), but the `open` for
write can itself raise an `IOError` (e.g. an unwritable directory); the
`create_ok` flag models the outcome of that attempt, and nothing in the
function catches the failure. -/
def _create_whitelist_file (create_ok : Bool) (fs : FileState) : Except Nat FileState :=
  if path_exists fs then .ok fs
  else if create_ok then .ok (.present []) else .error 13

/-- `WhitelistConfigReader._get_whitelisted_names_from_file`:
`self._filter_valid_regexes(map(strip, whitelist_file))`. -/
def _get_whitelisted_names_from_file (pass_through_allowed : Bool) (fs : FileState) :
    Except Nat (List String) :=
  (readLines fs).map fun lines =>
    _filter_valid_regexes pass_through_allowed (lines.map pyStrip)

/-- `WhitelistConfigReader.get_regex_list`: returns the parsed list, and on
an `IOError` from the read returns the `[EMPTY_REGEX]` fallback, creating
the file first when the error was `ENOENT`.  `_create_whitelist_file` is
called from inside the `except IOError` handler, so an `IOError` it raises
is not caught by the surrounding `try` and propagates to the caller — the
`.error` result.  A successful result pairs the returned list with the
file state after the call. -/
def get_regex_list (pass_through_allowed : Bool) (create_ok : Bool) (fs : FileState) :
    Except Nat (List String × FileState) :=
  match _get_whitelisted_names_from_file pass_through_allowed fs with
  | .ok l => .ok (l, fs)
  | .error e =>
      if e = NO_SUCH_FILE then
        match _create_whitelist_file create_ok fs with
        | .ok fs₂ => .ok ([EMPTY_REGEX], fs₂)
        | .error e₂ => .error e₂
      else .ok ([EMPTY_REGEX], fs)

end WhitelistConfigReader

/-! ### `BlockedMetricLogger` and `Whitelist`

The audit log is modelled as the list of metric names successfully appended
by this classifier instance (construction truncates the file, so the
instance's appends are exactly the file's post-header lines while I/O
succeeds).  Each I/O attempt can independently fail, which the code catches
and only warns about; a call's `append_ok` flag models the outcome of that
attempt. -/

/-- `BlockedMetricLogger.log_metric`: appends the name when the underlying
`open`/`write` succeeds, and swallows the `IOError` (leaving the log
unchanged) when it fails. -/
def log_metric (log : List String) (metric_name : String) (append_ok : Bool) :
    List String :=
  if append_ok then log ++ [metric_name] else log

/-- `Whitelist.__init__` state: the compiled alternation, the
`_allowed_metrics` decision cache, and the audit log. -/
structure Whitelist where
  regex : Regex
  allowed_metrics : List (String × Bool)
  blocked_log : List String
deriving DecidableEq

/-- Lookup in the `_allowed_metrics` dict. -/
def cacheLookup : List (String × Bool) → String → Option Bool
  | [], _ => none
  | (k, v) :: rest, m => if k = m then some v else cacheLookup rest m

/-- A fresh `Whitelist` built from an already-compiled matcher.
`BlockedMetricLogger.__init__` truncates (or fails to truncate) the log
file; either way construction succeeds with no appends recorded yet. -/
def Whitelist.init (r : Regex) (_create_ok : Bool) : Whitelist :=
  ⟨r, [], []⟩

/-- `re.compile("|".join(whitelist_regex_list))` from `Whitelist.__init__`. -/
def compile_whitelist (ps : List String) : Option Regex := re_compile (joinBar ps)

/-- `Whitelist.is_whitelisted`: cached verdict if present; otherwise match,
cache the verdict, and log first-time rejections. -/
def is_whitelisted (w : Whitelist) (metric_key : String) (append_ok : Bool) :
    Bool × Whitelist :=
  match cacheLookup w.allowed_metrics metric_key with
  | some v => (v, w)
  | none =>
      if reMatch w.regex metric_key then
        (true, { w with allowed_metrics := (metric_key, true) :: w.allowed_metrics })
      else
        (false,
          { w with
            allowed_metrics := (metric_key, false) :: w.allowed_metrics,
            blocked_log := log_metric w.blocked_log metric_key append_ok })

/-- A sequence of sequential `is_whitelisted` calls; each call carries the
success flag of its potential audit-log append. -/
def run_calls (w : Whitelist) (calls : List (String × Bool)) : Whitelist :=
  calls.foldl (fun w c => (is_whitelisted w c.1 c.2).2) w

/-- The verdict `classify`/`is_whitelisted` gives on a fresh classifier
built from the pattern-string list `ps` (`false` also covers the fatal
construction case where the joined pattern does not compile). -/
def verdict_from_list (ps : List String) (m : String) : Bool :=
  match compile_whitelist ps with
  | some r => (is_whitelisted (Whitelist.init r true) m true).1
  | none => false

/-- Full-string match of the metric name against one pattern string
(the right-hand side of claim C1). -/
def full_string_match (p : String) (m : String) : Bool :=
  match re_compile p with
  | some r => reFullmatch r m
  | none => false

/-! ### Basic semantic lemmas -/

theorem mem_ends_cat {r₁ r₂ : Regex} {s : List Char} {i j : Nat} :
    j ∈ ends (.cat r₁ r₂) s i ↔ ∃ k ∈ ends r₁ s i, j ∈ ends r₂ s k := by
  simp [ends]

theorem mem_ends_alt {r₁ r₂ : Regex} {s : List Char} {i j : Nat} :
    j ∈ ends (.alt r₁ r₂) s i ↔ j ∈ ends r₁ s i ∨ j ∈ ends r₂ s i := by
  simp [ends]

/-! ### One-step unfolding equations for the mutual parsers

The mutual recursion makes direct `simp [parseSeq]` rewriting unfold inner
recursive calls as well; these explicit one-step equations let proofs
unfold exactly one layer. -/

theorem parseAlt_succ (f : Nat) (cs : List Char) :
    parseAlt (f + 1) cs =
      match parseSeq f cs with
      | none => none
      | some (r₁, rem₁) =>
          match rem₁ with
          | '|' :: rest =>
              match parseAlt f rest with
              | none => none
              | some (r₂, rem₂) => some (.alt r₁ r₂, rem₂)
          | _ => some (r₁, rem₁) := rfl

theorem parseSeq_succ (f : Nat) (cs : List Char) :
    parseSeq (f + 1) cs =
      match cs with
      | [] => some (.eps, [])
      | c :: _ =>
          if c = '|' ∨ c = ')' then some (.eps, cs)
          else
            match parseAtom f cs with
            | none => none
            | some (a, rem₁) =>
                match parseQuant a rem₁ with
                | none => none
                | some (a₂, rem₂) =>
                    match parseSeq f rem₂ with
                    | none => none
                    | some (r, rem₃) => some (.cat a₂ r, rem₃) := rfl

theorem parseAtom_succ (f : Nat) (cs : List Char) :
    parseAtom (f + 1) cs =
      match cs with
      | [] => none
      | c :: rest =>
          if c = '^' then some (.bol, rest)
          else if c = '$' then some (.eol, rest)
          else if c = '.' then some (.dot, rest)
          else if c = '(' then
            match rest with
            | '?' :: _ => none
            | _ =>
                match parseAlt f rest with
                | none => none
                | some (r, rem) =>
                    match rem with
                    | ')' :: rest₂ => some (r, rest₂)
                    | _ => none
          else if c = '[' then parseClass rest
          else if c = '\\' then
            match rest with
            | [] => none
            | e :: rest₂ =>
                match parseEscape e with
                | none => none
                | some r => some (r, rest₂)
          else if isQuantChar c then none
          else some (.char c, rest) := rfl

/-! ### Fuel monotonicity -/

theorem parse_mono_succ :
    ∀ f : Nat,
      (∀ cs v, parseAlt f cs = some v → parseAlt (f + 1) cs = some v) ∧
      (∀ cs v, parseSeq f cs = some v → parseSeq (f + 1) cs = some v) ∧
      (∀ cs v, parseAtom f cs = some v → parseAtom (f + 1) cs = some v) := by
  intro f
  induction f with
  | zero =>
    refine ⟨?_, ?_, ?_⟩ <;> intro cs v h <;> simp [parseAlt, parseSeq, parseAtom] at h
  | succ f ih =>
    obtain ⟨ihA, ihS, ihT⟩ := ih
    refine ⟨?_, ?_, ?_⟩
    · intro cs v h
      rw [parseAlt_succ] at h ⊢
      cases hS : parseSeq f cs with
      | none => rw [hS] at h; exact absurd h (by simp)
      | some v₁ =>
        rw [hS] at h
        rw [ihS _ _ hS]
        obtain ⟨r₁, rem₁⟩ := v₁
        cases rem₁ with
        | nil => exact h
        | cons c rest =>
          by_cases hc : c = '|'
          · subst hc
            simp only at h ⊢
            cases hA : parseAlt f rest with
            | none => rw [hA] at h; exact absurd h (by simp)
            | some v₂ => rw [hA] at h; rw [ihA _ _ hA]; exact h
          · simp only at h ⊢
            cases c; simp_all
    · intro cs v h
      rw [parseSeq_succ] at h ⊢
      cases cs with
      | nil => exact h
      | cons c rest =>
        simp only at h ⊢
        by_cases hc : c = '|' ∨ c = ')'
        · simp only [if_pos hc] at h ⊢; exact h
        · simp only [if_neg hc] at h ⊢
          cases hT : parseAtom f (c :: rest) with
          | none => rw [hT] at h; exact absurd h (by simp)
          | some v₁ =>
            rw [hT] at h
            rw [ihT _ _ hT]
            obtain ⟨a, rem₁⟩ := v₁
            simp only at h ⊢
            cases hQ : parseQuant a rem₁ with
            | none =>
              try rw [hQ] at h
              exact absurd h (by simp)
            | some v₂ =>
              try rw [hQ] at h
              try rw [hQ]
              obtain ⟨a₂, rem₂⟩ := v₂
              simp only at h ⊢
              cases hS : parseSeq f rem₂ with
              | none => rw [hS] at h; exact absurd h (by simp)
              | some v₃ => rw [hS] at h; rw [ihS _ _ hS]; exact h
    · intro cs v h
      rw [parseAtom_succ] at h ⊢
      cases cs with
      | nil => exact h
      | cons c rest =>
        simp only at h ⊢
        by_cases h1 : c = '^'
        · simp only [if_pos h1] at h ⊢; exact h
        · simp only [if_neg h1] at h ⊢
          by_cases h2 : c = '$'
          · simp only [if_pos h2] at h ⊢; exact h
          · simp only [if_neg h2] at h ⊢
            by_cases h3 : c = '.'
            · simp only [if_pos h3] at h ⊢; exact h
            · simp only [if_neg h3] at h ⊢
              by_cases h4 : c = '('
              · simp only [if_pos h4] at h ⊢
                cases rest with
                | nil =>
                  simp only at h ⊢
                  cases hA : parseAlt f [] with
                  | none => rw [hA] at h; exact absurd h (by simp)
                  | some v₁ =>
                    rw [hA] at h; rw [ihA _ _ hA]
                    obtain ⟨r, rem⟩ := v₁
                    exact h
                | cons d rest₂ =>
                  by_cases hd : d = '?'
                  · subst hd; simp only at h; exact absurd h (by simp)
                  · have hred :
                        ∀ g : Nat,
                          (match (d :: rest₂ : List Char) with
                           | '?' :: _ => none
                           | _ =>
                               match parseAlt g (d :: rest₂) with
                               | none => none
                               | some (r, rem) =>
                                   match rem with
                                   | ')' :: rest₃ => some (r, rest₃)
                                   | _ => none) =
                          (match parseAlt g (d :: rest₂) with
                           | none => none
                           | some (r, rem) =>
                               match rem with
                               | ')' :: rest₃ => some (r, rest₃)
                               | _ => none) := by
                      intro g; cases d; simp_all
                    rw [hred] at h
                    rw [hred]
                    cases hA : parseAlt f (d :: rest₂) with
                    | none => rw [hA] at h; exact absurd h (by simp)
                    | some v₁ => rw [hA] at h; rw [ihA _ _ hA]; exact h
              · simp only [if_neg h4] at h ⊢
                exact h

/-- Fuel monotonicity for `parseAlt`. -/
theorem parseAlt_mono {f f' : Nat} (hle : f ≤ f') {cs : List Char}
    {v : Regex × List Char} (h : parseAlt f cs = some v) : parseAlt f' cs = some v := by
  induction f', hle using Nat.le_induction with
  | base => exact h
  | succ g _ ih => exact (parse_mono_succ g).1 _ _ ih

/-- Fuel monotonicity for `parseSeq`. -/
theorem parseSeq_mono {f f' : Nat} (hle : f ≤ f') {cs : List Char}
    {v : Regex × List Char} (h : parseSeq f cs = some v) : parseSeq f' cs = some v := by
  induction f', hle using Nat.le_induction with
  | base => exact h
  | succ g _ ih => exact (parse_mono_succ g).2.1 _ _ ih

/-- Fuel monotonicity for `parseAtom`. -/
theorem parseAtom_mono {f f' : Nat} (hle : f ≤ f') {cs : List Char}
    {v : Regex × List Char} (h : parseAtom f cs = some v) : parseAtom f' cs = some v := by
  induction f', hle using Nat.le_induction with
  | base => exact h
  | succ g _ ih => exact (parse_mono_succ g).2.2 _ _ ih

/-! ### List helpers -/

/-- A nonempty suffix of `xs ++ [z]` is `ys ++ [z]` for a suffix `ys` of `xs`. -/
theorem suffix_snoc {rem xs : List Char} {z : Char}
    (h : rem <:+ xs ++ [z]) (hne : rem ≠ []) :
    ∃ ys, ys <:+ xs ∧ rem = ys ++ [z] := by
  obtain ⟨pre, hpre⟩ := h
  obtain ⟨ys, y, rfl⟩ : ∃ ys y, rem = ys ++ [y] := by
    rcases List.eq_nil_or_concat rem with hnil | ⟨ys, y, hy⟩
    · exact absurd hnil hne
    · exact ⟨ys, y, by simpa using hy⟩
  rw [← List.append_assoc] at hpre
  have := List.append_inj' hpre (by rfl)
  obtain ⟨h1, h2⟩ := this
  refine ⟨ys, ⟨pre, h1⟩, ?_⟩
  simp at h2
  rw [h2]

/-- A nonempty suffix ends where the full list ends. -/
theorem getLast?_of_suffix {xs ys : List Char} (h : xs <:+ ys) (hne : xs ≠ []) :
    ys.getLast? = xs.getLast? := by
  obtain ⟨pre, rfl⟩ := h
  exact List.getLast?_append_of_ne_nil _ hne

/-! ### Extension, suffix and span lemmas for the class parser -/

theorem parseClassItems_append (ext : List Char) :
    ∀ cs, ∀ v rem, parseClassItems cs = some (v, rem) →
      parseClassItems (cs ++ ext) = some (v, rem ++ ext) := by
  intro cs
  induction cs using parseClassItems.induct with
  | case10 c d rest₂ hc1 hc2 hd1 hd2 hnle =>
      intro v rem h
      exfalso
      rw [parseClassItems] at h
      · simp only [if_neg hnle] at h
        exact Option.noConfusion h
      · exact fun hc => hc1 hc
      · exact fun hc => hc2 hc
      · exact fun hd => hd1 hd
      · exact fun hd => hd2 hd
  | case11 c rest hc1 hc2 hc3 hc4 hc5 hc6 items rem hrec ih =>
      intro v rem' h
      cases rest with
      | nil => rw [parseClassItems] at hrec; exact absurd hrec (by simp)
      | cons y tail =>
        by_cases hy : y = '-'
        · subst hy
          cases tail with
          | nil =>
            have hnone : parseClassItems ['-'] = none := by rfl
            rw [hnone] at hrec; exact absurd hrec (by simp)
          | cons z tl => exact absurd rfl (hc6 z tl)
        · have hstep := ih _ _ hrec
          simp only [List.cons_append] at hstep ⊢
          simp_all [parseClassItems]
  | _ =>
      (try intro v rem h) <;> (try simp only [List.cons_append]) <;>
        simp_all [parseClassItems]

theorem parseClassItems_suffix :
    ∀ cs v rem, parseClassItems cs = some (v, rem) → rem <:+ cs := by
  intro cs
  induction cs using parseClassItems.induct with
  | case10 c d rest₂ hc1 hc2 hd1 hd2 hnle =>
      intro v rem h
      exfalso
      rw [parseClassItems] at h
      · simp only [if_neg hnle] at h
        exact Option.noConfusion h
      · exact fun hc => hc1 hc
      · exact fun hc => hc2 hc
      · exact fun hd => hd1 hd
      · exact fun hd => hd2 hd
  | case11 c rest hc1 hc2 hc3 hc4 hc5 hc6 items rem hrec ih =>
      intro v rem' h
      have hstep := ih _ _ hrec
      have heq : rem' = rem := by simp_all [parseClassItems]
      rw [heq]
      exact hstep.trans (List.suffix_cons c rest)
  | case2 rest =>
      intro v rem h
      simp only [parseClassItems, Option.some.injEq, Prod.mk.injEq] at h
      rw [← h.2]
      exact List.suffix_cons ']' rest
  | case4 e rest₂ it items rem hrec hesc ih =>
      intro v rem' h
      have hstep := ih _ _ hrec
      have heq : rem' = rem := by simp_all [parseClassItems]
      rw [heq]
      exact (hstep.trans (List.suffix_cons e rest₂)).trans
        (List.suffix_cons '\\' (e :: rest₂))
  | case6 c rest₂ hc1 hc2 =>
      intro v rem h
      have heq : rem = rest₂ := by simp_all [parseClassItems]
      rw [heq]
      exact ((List.suffix_cons ']' rest₂).trans (List.suffix_cons '-' (']' :: rest₂))).trans
        (List.suffix_cons c ('-' :: ']' :: rest₂))
  | case8 c d rest₂ hc1 hc2 hd1 hd2 hle items rem hrec ih =>
      intro v rem' h
      have hstep := ih _ _ hrec
      have heq : rem' = rem := by simp_all [parseClassItems]
      rw [heq]
      exact ((hstep.trans (List.suffix_cons d rest₂)).trans
        (List.suffix_cons '-' (d :: rest₂))).trans (List.suffix_cons c ('-' :: d :: rest₂))
  | _ =>
      (try intro v rem h) <;> simp_all [parseClassItems]

/-- If a class-body parse consumes its entire input, the input ends in `]`. -/
theorem parseClassItems_rem_nil :
    ∀ cs v, parseClassItems cs = some (v, []) → cs.getLast? = some ']' := by
  intro cs
  induction cs using parseClassItems.induct with
  | case10 c d rest₂ hc1 hc2 hd1 hd2 hnle =>
      intro v h
      exfalso
      rw [parseClassItems] at h
      · simp only [if_neg hnle] at h
        exact Option.noConfusion h
      · exact fun hc => hc1 hc
      · exact fun hc => hc2 hc
      · exact fun hd => hd1 hd
      · exact fun hd => hd2 hd
  | case2 rest =>
      intro v h
      simp only [parseClassItems, Option.some.injEq, Prod.mk.injEq] at h
      rw [h.2]
      rfl
  | case4 e rest₂ it items rem hrec hesc ih =>
      intro v h
      have hrem : rem = [] := by simp_all [parseClassItems]
      rw [hrem] at hrec
      have hlast := ih _ hrec
      have hne : rest₂ ≠ [] := by
        intro hn; rw [hn, parseClassItems] at hrec; exact Option.noConfusion hrec
      rw [List.getLast?_cons, List.getLast?_cons]
      rw [List.getLast?_eq_getLast _ hne] at hlast ⊢
      simpa using hlast
  | case8 c d rest₂ hc1 hc2 hd1 hd2 hle items rem hrec ih =>
      intro v h
      have hrem : rem = [] := by simp_all [parseClassItems]
      rw [hrem] at hrec
      have hlast := ih _ hrec
      have hne : rest₂ ≠ [] := by
        intro hn; rw [hn, parseClassItems] at hrec; exact Option.noConfusion hrec
      rw [List.getLast?_cons, List.getLast?_cons, List.getLast?_cons]
      rw [List.getLast?_eq_getLast _ hne] at hlast ⊢
      simpa using hlast
  | case11 c rest hc1 hc2 hc3 hc4 hc5 hc6 items rem hrec ih =>
      intro v h
      have hrem : rem = [] := by simp_all [parseClassItems]
      rw [hrem] at hrec
      have hlast := ih _ hrec
      have hne : rest ≠ [] := by
        intro hn; rw [hn, parseClassItems] at hrec; exact Option.noConfusion hrec
      rw [List.getLast?_cons]
      rw [List.getLast?_eq_getLast _ hne] at hlast ⊢
      simpa using hlast
  | _ =>
      (try intro v h) <;> simp_all [parseClassItems]

/-- A class-body parse of an input ending in `$` keeps the trailing `$` in
its remainder (the `$` cannot be consumed: every successful parse stops at
a `]` strictly before it). -/
theorem parseClassItems_span {xs : List Char} {v : List ClassItem} {rem : List Char}
    (h : parseClassItems (xs ++ ['$']) = some (v, rem)) :
    ∃ ys, ys <:+ xs ∧ rem = ys ++ ['$'] := by
  have hsuf := parseClassItems_suffix _ _ _ h
  have hne : rem ≠ [] := by
    intro hn
    rw [hn] at h
    have := parseClassItems_rem_nil _ _ h
    rw [List.getLast?_append_of_ne_nil _ (by simp)] at this
    simp at this
  exact suffix_snoc hsuf hne

theorem parseClass_append {cs : List Char} {r : Regex} {rem ext : List Char}
    (h : parseClass cs = some (r, rem)) :
    parseClass (cs ++ ext) = some (r, rem ++ ext) := by
  cases cs with
  | nil => simp [parseClass, parseClassItems] at h
  | cons c cs' =>
    by_cases hc : c = '^'
    · subst hc
      cases cs' with
      | nil => simp [parseClass, parseClassItems] at h
      | cons y tail =>
        by_cases hy : y = ']'
        · subst hy
          simp only [parseClass] at h
          cases hp : parseClassItems tail with
          | none => rw [hp] at h; exact Option.noConfusion h
          | some v =>
            rw [hp] at h
            obtain ⟨items, rem'⟩ := v
            simp only [Option.some.injEq, Prod.mk.injEq] at h
            simp only [List.cons_append]
            simp [parseClass, parseClassItems_append ext _ _ _ hp, h.1, ← h.2]
        · have hred : parseClass ('^' :: y :: tail) =
              match parseClassItems (y :: tail) with
              | some (items, rem) => some (.cls true items, rem)
              | none => none := by
            cases y <;> simp_all [parseClass]
          have hred₂ : parseClass ('^' :: y :: (tail ++ ext)) =
              match parseClassItems (y :: tail ++ ext) with
              | some (items, rem) => some (.cls true items, rem)
              | none => none := by
            cases y <;> simp_all [parseClass]
          rw [hred] at h
          simp only [List.cons_append]
          rw [hred₂]
          cases hp : parseClassItems (y :: tail) with
          | none => rw [hp] at h; exact Option.noConfusion h
          | some v =>
            rw [hp] at h
            obtain ⟨items, rem'⟩ := v
            simp only [Option.some.injEq, Prod.mk.injEq] at h
            have h3 := parseClassItems_append ext _ _ _ hp
            simp only [List.cons_append] at h3
            simp [h3, ← h.1, ← h.2]
    · by_cases hcb : c = ']'
      · subst hcb
        simp only [parseClass] at h
        cases hp : parseClassItems cs' with
        | none => rw [hp] at h; exact Option.noConfusion h
        | some v =>
          rw [hp] at h
          obtain ⟨items, rem'⟩ := v
          simp only [Option.some.injEq, Prod.mk.injEq] at h
          simp only [List.cons_append]
          simp [parseClass, parseClassItems_append ext _ _ _ hp, h.1, ← h.2]
      · have hred : ∀ tl, parseClass (c :: tl) =
            match parseClassItems (c :: tl) with
            | some (items, rem) => some (.cls false items, rem)
            | none => none := by
          intro tl; cases c <;> simp_all [parseClass]
        rw [hred] at h
        simp only [List.cons_append]
        rw [hred]
        cases hp : parseClassItems (c :: cs') with
        | none => rw [hp] at h; exact Option.noConfusion h
        | some v =>
          rw [hp] at h
          obtain ⟨items, rem'⟩ := v
          simp only [Option.some.injEq, Prod.mk.injEq] at h
          have h3 := parseClassItems_append ext _ _ _ hp
          simp only [List.cons_append] at h3
          simp [h3, ← h.1, ← h.2]

theorem parseClass_span {xs : List Char} {r : Regex} {rem : List Char}
    (h : parseClass (xs ++ ['$']) = some (r, rem)) :
    ∃ ys, ys <:+ xs ∧ rem = ys ++ ['$'] := by
  cases xs with
  | nil =>
    have hn : parseClass ([] ++ ['$']) = none := rfl
    rw [hn] at h; exact Option.noConfusion h
  | cons c t =>
    by_cases hc : c = '^'
    · subst hc
      cases t with
      | nil =>
        have hn : parseClass (['^'] ++ ['$']) = none := rfl
        rw [hn] at h; exact Option.noConfusion h
      | cons y t₂ =>
        by_cases hy : y = ']'
        · subst hy
          simp only [List.cons_append] at h
          simp only [parseClass] at h
          cases hp : parseClassItems (t₂ ++ ['$']) with
          | none => rw [hp] at h; exact Option.noConfusion h
          | some v =>
            rw [hp] at h
            obtain ⟨items, rem'⟩ := v
            simp only [Option.some.injEq, Prod.mk.injEq] at h
            obtain ⟨ys, hsuf, hrem⟩ := parseClassItems_span hp
            exact ⟨ys, (hsuf.trans (List.suffix_cons ']' t₂)).trans
              (List.suffix_cons '^' (']' :: t₂)), by rw [← h.2, hrem]⟩
        · have hred : ∀ u : List Char, parseClass ('^' :: y :: u) =
              match parseClassItems (y :: u) with
              | some (items, rem) => some (.cls true items, rem)
              | none => none := by
            intro u; cases y <;> simp_all [parseClass]
          simp only [List.cons_append] at h
          rw [hred] at h
          cases hp : parseClassItems (y :: (t₂ ++ ['$'])) with
          | none => rw [hp] at h; exact Option.noConfusion h
          | some v =>
            rw [hp] at h
            obtain ⟨items, rem'⟩ := v
            simp only [Option.some.injEq, Prod.mk.injEq] at h
            have hp' : parseClassItems ((y :: t₂) ++ ['$']) = some (items, rem') := by
              simpa using hp
            obtain ⟨ys, hsuf, hrem⟩ := parseClassItems_span hp'
            exact ⟨ys, hsuf.trans (List.suffix_cons '^' (y :: t₂)), by rw [← h.2, hrem]⟩
    · by_cases hcb : c = ']'
      · subst hcb
        simp only [List.cons_append] at h
        simp only [parseClass] at h
        cases hp : parseClassItems (t ++ ['$']) with
        | none => rw [hp] at h; exact Option.noConfusion h
        | some v =>
          rw [hp] at h
          obtain ⟨items, rem'⟩ := v
          simp only [Option.some.injEq, Prod.mk.injEq] at h
          obtain ⟨ys, hsuf, hrem⟩ := parseClassItems_span hp
          exact ⟨ys, hsuf.trans (List.suffix_cons ']' t), by rw [← h.2, hrem]⟩
      · have hred : ∀ u : List Char, parseClass (c :: u) =
            match parseClassItems (c :: u) with
            | some (items, rem) => some (.cls false items, rem)
            | none => none := by
          intro u; cases c <;> simp_all [parseClass]
        simp only [List.cons_append] at h
        rw [hred] at h
        cases hp : parseClassItems (c :: (t ++ ['$'])) with
        | none => rw [hp] at h; exact Option.noConfusion h
        | some v =>
          rw [hp] at h
          obtain ⟨items, rem'⟩ := v
          simp only [Option.some.injEq, Prod.mk.injEq] at h
          have hp' : parseClassItems ((c :: t) ++ ['$']) = some (items, rem') := by
            simpa using hp
          obtain ⟨ys, hsuf, hrem⟩ := parseClassItems_span hp'
          exact ⟨ys, hsuf, by rw [← h.2, hrem]⟩

/-! ### Extension and span lemmas for `parseQuant` -/

theorem parseQuant_append {a a₂ : Regex} {cs rem : List Char} {x : Char} {ext : List Char}
    (hx : isQuantChar x = false)
    (h : parseQuant a cs = some (a₂, rem)) :
    parseQuant a (cs ++ x :: ext) = some (a₂, rem ++ x :: ext) := by
  have hx1 : ¬(x = '?') := fun he => by subst he; simp [isQuantChar] at hx
  cases cs with
  | nil =>
    simp only [parseQuant, Option.some.injEq, Prod.mk.injEq] at h
    simp [parseQuant, hx, ← h.1, ← h.2]
  | cons q rest =>
    by_cases hq : isQuantChar q = true
    · by_cases ha : isAnchor a = true
      · simp [parseQuant, hq, ha] at h
      · cases rest with
        | nil =>
          simp only [parseQuant, hq, ha, if_true, Bool.false_eq_true, if_false] at h ⊢
          simp only [List.nil_append, List.cons_append] at h ⊢
          simp only [Option.some.injEq, Prod.mk.injEq] at h
          have hxe : (match (x :: ext : List Char) with
              | '?' :: rest' => rest'
              | _ => x :: ext) = x :: ext := by
            cases hxc : x; simp_all
          rw [hxe]
          simp [hx, ← h.1, ← h.2]
          exact hq
        | cons y r' =>
          by_cases hy : y = '?'
          · subst hy
            cases r' with
            | nil =>
              simp only [parseQuant, hq, ha, if_true, Bool.false_eq_true, if_false,
                List.cons_append, List.nil_append] at h ⊢
              simp only [Option.some.injEq, Prod.mk.injEq] at h
              cases hxc : x with
              | _ v =>
                subst hxc
                simp_all [hx]
            | cons d r'' =>
              simp only [parseQuant, hq, ha, if_true, Bool.false_eq_true, if_false,
                List.cons_append] at h ⊢
              by_cases hd : isQuantChar d = true
              · simp [hd] at h
              · simp only [hd, Bool.false_eq_true, if_false] at h ⊢
                simp only [Option.some.injEq, Prod.mk.injEq] at h ⊢
                exact ⟨h.1, by rw [← h.2]; simp⟩
          · have hng : ∀ u : List Char, (match (y :: u : List Char) with
                | '?' :: rest' => rest'
                | _ => y :: u) = y :: u := by
              intro u; cases y; simp_all
            simp only [parseQuant, hq, ha, if_true, Bool.false_eq_true, if_false,
              List.cons_append, hng] at h ⊢
            by_cases hyq : isQuantChar y = true
            · simp [hyq] at h
            · simp only [hyq, Bool.false_eq_true, if_false] at h ⊢
              simp only [Option.some.injEq, Prod.mk.injEq] at h ⊢
              exact ⟨h.1, by rw [← h.2]; simp⟩
    · simp only [parseQuant, hq, Bool.false_eq_true, if_false,
        Option.some.injEq, Prod.mk.injEq] at h
      simp [parseQuant, hq, ← h.1, ← h.2]

theorem parseQuant_span {a a₂ : Regex} {cs rem : List Char}
    (h : parseQuant a (cs ++ ['$']) = some (a₂, rem)) :
    ∃ ys, ys <:+ cs ∧ rem = ys ++ ['$'] := by
  cases cs with
  | nil =>
    simp only [List.nil_append, parseQuant] at h
    have : isQuantChar '$' = false := rfl
    rw [this] at h
    simp only [Bool.false_eq_true, if_false, Option.some.injEq, Prod.mk.injEq] at h
    exact ⟨[], List.nil_suffix, by rw [← h.2]; rfl⟩
  | cons q rest =>
    simp only [List.cons_append] at h
    by_cases hq : isQuantChar q = true
    · by_cases ha : isAnchor a = true
      · simp [parseQuant, hq, ha] at h
      · cases rest with
        | nil =>
          simp only [List.nil_append, parseQuant, hq, ha, if_true, Bool.false_eq_true,
            if_false] at h
          have hng : (match ('$' :: [] : List Char) with
              | '?' :: rest' => rest'
              | _ => ['$']) = ['$'] := rfl
          rw [hng] at h
          have : isQuantChar '$' = false := rfl
          simp only [this, Bool.false_eq_true, if_false, Option.some.injEq,
            Prod.mk.injEq] at h
          exact ⟨[], List.nil_suffix, by rw [← h.2]; rfl⟩
        | cons y r' =>
          by_cases hy : y = '?'
          · subst hy
            cases r' with
            | nil =>
              simp only [List.cons_append, List.nil_append, parseQuant, hq, ha, if_true,
                Bool.false_eq_true, if_false] at h
              have : isQuantChar '$' = false := rfl
              simp only [this, Bool.false_eq_true, if_false, Option.some.injEq,
                Prod.mk.injEq] at h
              exact ⟨[], List.nil_suffix, by rw [← h.2]; rfl⟩
            | cons d r'' =>
              simp only [List.cons_append, parseQuant, hq, ha, if_true,
                Bool.false_eq_true, if_false] at h
              by_cases hd : isQuantChar d = true
              · simp [hd] at h
              · simp only [hd, Bool.false_eq_true, if_false, Option.some.injEq,
                  Prod.mk.injEq] at h
                refine ⟨d :: r'', ?_, by rw [← h.2]; simp⟩
                exact (List.suffix_cons '?' (d :: r'')).trans
                  (List.suffix_cons q ('?' :: d :: r''))
          · have hng : ∀ u : List Char, (match (y :: u : List Char) with
                | '?' :: rest' => rest'
                | _ => y :: u) = y :: u := by
              intro u; cases y; simp_all
            simp only [List.cons_append, parseQuant, hq, ha, if_true,
              Bool.false_eq_true, if_false, hng] at h
            by_cases hyq : isQuantChar y = true
            · simp [hyq] at h
            · simp only [hyq, Bool.false_eq_true, if_false, Option.some.injEq,
                Prod.mk.injEq] at h
              exact ⟨y :: r', List.suffix_cons q (y :: r'), by rw [← h.2]; simp⟩
    · simp only [parseQuant, hq, Bool.false_eq_true, if_false, Option.some.injEq,
        Prod.mk.injEq] at h
      exact ⟨q :: rest, List.suffix_refl _, by rw [← h.2]; simp⟩

/-! ### Remainders are suffixes of the input -/

theorem parseClass_suffix {cs : List Char} {r : Regex} {rem : List Char}
    (h : parseClass cs = some (r, rem)) : rem <:+ cs := by
  cases cs with
  | nil => simp [parseClass, parseClassItems] at h
  | cons c t =>
    by_cases hc : c = '^'
    · subst hc
      cases t with
      | nil => simp [parseClass, parseClassItems] at h
      | cons y t₂ =>
        by_cases hy : y = ']'
        · subst hy
          simp only [parseClass] at h
          cases hp : parseClassItems t₂ with
          | none => rw [hp] at h; exact Option.noConfusion h
          | some v =>
            rw [hp] at h
            obtain ⟨items, rem'⟩ := v
            simp only [Option.some.injEq, Prod.mk.injEq] at h
            rw [← h.2]
            exact ((parseClassItems_suffix _ _ _ hp).trans
              (List.suffix_cons ']' t₂)).trans (List.suffix_cons '^' (']' :: t₂))
        · have hred : ∀ u : List Char, parseClass ('^' :: y :: u) =
              match parseClassItems (y :: u) with
              | some (items, rem) => some (.cls true items, rem)
              | none => none := by
            intro u; cases y; simp_all [parseClass]
          rw [hred] at h
          cases hp : parseClassItems (y :: t₂) with
          | none => rw [hp] at h; exact Option.noConfusion h
          | some v =>
            rw [hp] at h
            obtain ⟨items, rem'⟩ := v
            simp only [Option.some.injEq, Prod.mk.injEq] at h
            rw [← h.2]
            exact (parseClassItems_suffix _ _ _ hp).trans
              (List.suffix_cons '^' (y :: t₂))
    · by_cases hcb : c = ']'
      · subst hcb
        simp only [parseClass] at h
        cases hp : parseClassItems t with
        | none => rw [hp] at h; exact Option.noConfusion h
        | some v =>
          rw [hp] at h
          obtain ⟨items, rem'⟩ := v
          simp only [Option.some.injEq, Prod.mk.injEq] at h
          rw [← h.2]
          exact (parseClassItems_suffix _ _ _ hp).trans (List.suffix_cons ']' t)
      · have hred : ∀ u : List Char, parseClass (c :: u) =
            match parseClassItems (c :: u) with
            | some (items, rem) => some (.cls false items, rem)
            | none => none := by
          intro u; cases c; simp_all [parseClass]
        rw [hred] at h
        cases hp : parseClassItems (c :: t) with
        | none => rw [hp] at h; exact Option.noConfusion h
        | some v =>
          rw [hp] at h
          obtain ⟨items, rem'⟩ := v
          simp only [Option.some.injEq, Prod.mk.injEq] at h
          rw [← h.2]
          exact parseClassItems_suffix _ _ _ hp

theorem parseQuant_suffix {a a₂ : Regex} {cs rem : List Char}
    (h : parseQuant a cs = some (a₂, rem)) : rem <:+ cs := by
  cases cs with
  | nil =>
    simp only [parseQuant, Option.some.injEq, Prod.mk.injEq] at h
    rw [← h.2]
  | cons q rest =>
    by_cases hq : isQuantChar q = true
    · by_cases ha : isAnchor a = true
      · simp [parseQuant, hq, ha] at h
      · cases rest with
        | nil =>
          simp only [parseQuant, hq, ha, if_true, Bool.false_eq_true, if_false,
            Option.some.injEq, Prod.mk.injEq] at h
          rw [← h.2]
          exact List.nil_suffix
        | cons y r' =>
          by_cases hy : y = '?'
          · subst hy
            cases r' with
            | nil =>
              simp only [parseQuant, hq, ha, if_true, Bool.false_eq_true, if_false,
                Option.some.injEq, Prod.mk.injEq] at h
              rw [← h.2]
              exact List.nil_suffix
            | cons d r'' =>
              simp only [parseQuant, hq, ha, if_true, Bool.false_eq_true, if_false] at h
              by_cases hd : isQuantChar d = true
              · simp [hd] at h
              · simp only [hd, Bool.false_eq_true, if_false, Option.some.injEq,
                  Prod.mk.injEq] at h
                rw [← h.2]
                exact (List.suffix_cons '?' (d :: r'')).trans
                  (List.suffix_cons q ('?' :: d :: r''))
          · have hng : (match (y :: r' : List Char) with
                | '?' :: rest' => rest'
                | _ => y :: r') = y :: r' := by
              cases y; simp_all
            simp only [parseQuant, hq, ha, if_true, Bool.false_eq_true, if_false,
              hng] at h
            by_cases hyq : isQuantChar y = true
            · simp [hyq] at h
            · simp only [hyq, Bool.false_eq_true, if_false, Option.some.injEq,
                Prod.mk.injEq] at h
              rw [← h.2]
              exact List.suffix_cons q (y :: r')
    · simp only [parseQuant, hq, Bool.false_eq_true, if_false, Option.some.injEq,
        Prod.mk.injEq] at h
      rw [← h.2]

theorem parse_suffix :
    ∀ f : Nat,
      (∀ cs v, parseSeq f cs = some v → v.2 <:+ cs) ∧
      (∀ cs v, parseAtom f cs = some v → v.2 <:+ cs) ∧
      (∀ cs v, parseAlt f cs = some v → v.2 <:+ cs) := by
  intro f
  induction f with
  | zero =>
    refine ⟨?_, ?_, ?_⟩ <;> intro cs v h <;> simp [parseAlt, parseSeq, parseAtom] at h
  | succ f ih =>
    obtain ⟨ihS, ihT, ihA⟩ := ih
    refine ⟨?_, ?_, ?_⟩
    · intro cs v h
      rw [parseSeq_succ] at h
      cases cs with
      | nil =>
        simp only [Option.some.injEq] at h
        rw [← h]
      | cons c rest =>
        simp only at h
        by_cases hc : c = '|' ∨ c = ')'
        · rw [if_pos hc] at h
          simp only [Option.some.injEq] at h
          rw [← h]
        · rw [if_neg hc] at h
          cases hT : parseAtom f (c :: rest) with
          | none => rw [hT] at h; exact Option.noConfusion h
          | some v₁ =>
            rw [hT] at h
            obtain ⟨a, rem₁⟩ := v₁
            simp only at h
            cases hQ : parseQuant a rem₁ with
            | none => rw [hQ] at h; exact Option.noConfusion h
            | some v₂ =>
              rw [hQ] at h
              obtain ⟨a₂, rem₂⟩ := v₂
              simp only at h
              cases hS : parseSeq f rem₂ with
              | none => rw [hS] at h; exact Option.noConfusion h
              | some v₃ =>
                rw [hS] at h
                obtain ⟨r₃, rem₃⟩ := v₃
                simp only [Option.some.injEq] at h
                have h₁ := ihT _ _ hT
                have h₂ := parseQuant_suffix hQ
                have h₃ := ihS _ _ hS
                simp only at h₁ h₃
                rw [← h]
                exact (h₃.trans h₂).trans h₁
    · intro cs v h
      rw [parseAtom_succ] at h
      cases cs with
      | nil => exact Option.noConfusion h
      | cons c rest =>
        simp only at h
        by_cases h1 : c = '^'
        · rw [if_pos h1] at h
          simp only [Option.some.injEq] at h
          rw [← h]
          exact List.suffix_cons c rest
        · rw [if_neg h1] at h
          by_cases h2 : c = '$'
          · rw [if_pos h2] at h
            simp only [Option.some.injEq] at h
            rw [← h]
            exact List.suffix_cons c rest
          · rw [if_neg h2] at h
            by_cases h3 : c = '.'
            · rw [if_pos h3] at h
              simp only [Option.some.injEq] at h
              rw [← h]
              exact List.suffix_cons c rest
            · rw [if_neg h3] at h
              by_cases h4 : c = '('
              · rw [if_pos h4] at h
                subst h4
                cases rest with
                | nil =>
                  simp only at h
                  cases hA : parseAlt f [] with
                  | none => rw [hA] at h; exact Option.noConfusion h
                  | some v₁ =>
                    rw [hA] at h
                    obtain ⟨ri, remI⟩ := v₁
                    simp only at h
                    cases remI with
                    | nil => exact Option.noConfusion h
                    | cons d rest₃ =>
                      have hsuf := ihA _ _ hA
                      simp only [List.suffix_nil] at hsuf
                      exact absurd hsuf (by simp)
                | cons d rest₂ =>
                  by_cases hd : d = '?'
                  · subst hd; simp only at h; exact Option.noConfusion h
                  · have hred : (match (d :: rest₂ : List Char) with
                        | '?' :: _ => none
                        | _ =>
                            match parseAlt f (d :: rest₂) with
                            | none => none
                            | some (r, rem) =>
                                match rem with
                                | ')' :: rest₃ => some (r, rest₃)
                                | _ => none) =
                        (match parseAlt f (d :: rest₂) with
                         | none => none
                         | some (r, rem) =>
                             match rem with
                             | ')' :: rest₃ => some (r, rest₃)
                             | _ => none) := by
                      cases d; simp_all
                    rw [hred] at h
                    cases hA : parseAlt f (d :: rest₂) with
                    | none => rw [hA] at h; exact Option.noConfusion h
                    | some v₁ =>
                      rw [hA] at h
                      obtain ⟨ri, remI⟩ := v₁
                      simp only at h
                      cases remI with
                      | nil => exact Option.noConfusion h
                      | cons e rest₃ =>
                        by_cases he : e = ')'
                        · subst he
                          simp only [Option.some.injEq] at h
                          have hsuf := ihA _ _ hA
                          simp only at hsuf
                          rw [← h]
                          have hx : rest₃ <:+ ')' :: rest₃ := List.suffix_cons ')' rest₃
                          exact ((hx.trans hsuf).trans
                            (List.suffix_cons '(' (d :: rest₂)))
                        · exfalso
                          revert h
                          cases e; simp_all
              · rw [if_neg h4] at h
                by_cases h5 : c = '['
                · rw [if_pos h5] at h
                  have hsuf := parseClass_suffix h
                  exact hsuf.trans (List.suffix_cons c rest)
                · rw [if_neg h5] at h
                  by_cases h6 : c = '\\'
                  · rw [if_pos h6] at h
                    cases rest with
                    | nil => exact Option.noConfusion h
                    | cons e rest₂ =>
                      simp only at h
                      cases hE : parseEscape e with
                      | none => rw [hE] at h; exact Option.noConfusion h
                      | some re =>
                        rw [hE] at h
                        simp only [Option.some.injEq] at h
                        rw [← h]
                        exact (List.suffix_cons e rest₂).trans
                          (List.suffix_cons c (e :: rest₂))
                  · rw [if_neg h6] at h
                    by_cases h7 : isQuantChar c = true
                    · rw [if_pos h7] at h; exact Option.noConfusion h
                    · simp only [h7, Bool.false_eq_true, if_false,
                        Option.some.injEq] at h
                      rw [← h]
                      exact List.suffix_cons c rest
    · intro cs v h
      rw [parseAlt_succ] at h
      cases hS : parseSeq f cs with
      | none => rw [hS] at h; exact Option.noConfusion h
      | some v₁ =>
        rw [hS] at h
        obtain ⟨r₁, rem₁⟩ := v₁
        have hsuf₁ := ihS _ _ hS
        simp only at hsuf₁
        cases rem₁ with
        | nil =>
          simp only [Option.some.injEq] at h
          rw [← h]
          exact List.nil_suffix
        | cons d tail =>
          by_cases hd : d = '|'
          · subst hd
            simp only at h
            cases hA : parseAlt f tail with
            | none => rw [hA] at h; exact Option.noConfusion h
            | some v₂ =>
              rw [hA] at h
              obtain ⟨r₂, rem₂⟩ := v₂
              simp only [Option.some.injEq] at h
              have hsuf₂ := ihA _ _ hA
              simp only at hsuf₂
              rw [← h]
              exact (hsuf₂.trans (List.suffix_cons '|' tail)).trans hsuf₁
          · simp only at h
            have : (some (r₁, d :: tail) : Option (Regex × List Char)) = some v := by
              revert h; cases d; simp_all
            simp only [Option.some.injEq] at this
            rw [← this]
            exact hsuf₁

/-! ### The extension property -/

theorem isQuantChar_bar : isQuantChar '|' = false := rfl

/-- Appending `| ...` to an input does not change how the parser consumes
the original part: `parseSeq`/`parseAtom` stop at `|` exactly where they
stopped at end of input, and `parseAlt` is unaffected when it already
stopped before the end (`rem ≠ []`). -/
theorem parse_ext :
    ∀ f : Nat,
      (∀ cs r rem ext, parseSeq f cs = some (r, rem) →
        parseSeq f (cs ++ '|' :: ext) = some (r, rem ++ '|' :: ext)) ∧
      (∀ cs r rem ext, parseAtom f cs = some (r, rem) →
        parseAtom f (cs ++ '|' :: ext) = some (r, rem ++ '|' :: ext)) ∧
      (∀ cs r rem ext, parseAlt f cs = some (r, rem) → rem ≠ [] →
        parseAlt f (cs ++ '|' :: ext) = some (r, rem ++ '|' :: ext)) := by
  intro f
  induction f with
  | zero =>
    refine ⟨?_, ?_, ?_⟩ <;> intro cs r rem ext h <;>
      simp [parseAlt, parseSeq, parseAtom] at h
  | succ f ih =>
    obtain ⟨ihS, ihT, ihA⟩ := ih
    refine ⟨?_, ?_, ?_⟩
    · -- parseSeq
      intro cs r rem ext h
      rw [parseSeq_succ] at h
      cases cs with
      | nil =>
        simp only [Option.some.injEq, Prod.mk.injEq] at h
        rw [List.nil_append, parseSeq_succ]
        simp [← h.1, ← h.2]
      | cons c rest =>
        simp only at h
        rw [List.cons_append, parseSeq_succ]
        by_cases hc : c = '|' ∨ c = ')'
        · rw [if_pos hc] at h
          simp only [Option.some.injEq, Prod.mk.injEq] at h
          simp only [if_pos hc]
          rw [← h.1, ← h.2]
          simp
        · rw [if_neg hc] at h
          simp only [if_neg hc]
          cases hT : parseAtom f (c :: rest) with
          | none => rw [hT] at h; exact Option.noConfusion h
          | some v₁ =>
            rw [hT] at h
            obtain ⟨a, rem₁⟩ := v₁
            have hT' := ihT _ _ _ ext hT
            rw [List.cons_append] at hT'
            rw [hT']
            simp only at h ⊢
            cases hQ : parseQuant a rem₁ with
            | none => rw [hQ] at h; exact Option.noConfusion h
            | some v₂ =>
              rw [hQ] at h
              obtain ⟨a₂, rem₂⟩ := v₂
              rw [parseQuant_append isQuantChar_bar hQ]
              simp only at h ⊢
              cases hS : parseSeq f rem₂ with
              | none => rw [hS] at h; exact Option.noConfusion h
              | some v₃ =>
                rw [hS] at h
                obtain ⟨r₃, rem₃⟩ := v₃
                rw [ihS _ _ _ ext hS]
                simp only [Option.some.injEq, Prod.mk.injEq] at h ⊢
                exact ⟨h.1, by rw [← h.2]⟩
    · -- parseAtom
      intro cs r rem ext h
      rw [parseAtom_succ] at h
      cases cs with
      | nil => exact Option.noConfusion h
      | cons c rest =>
        simp only at h
        rw [List.cons_append, parseAtom_succ]
        by_cases h1 : c = '^'
        · rw [if_pos h1] at h
          simp only [Option.some.injEq, Prod.mk.injEq] at h
          simp [if_pos h1, ← h.1, ← h.2]
        · rw [if_neg h1] at h
          simp only [if_neg h1]
          by_cases h2 : c = '$'
          · rw [if_pos h2] at h
            simp only [Option.some.injEq, Prod.mk.injEq] at h
            simp [if_pos h2, ← h.1, ← h.2]
          · rw [if_neg h2] at h
            simp only [if_neg h2]
            by_cases h3 : c = '.'
            · rw [if_pos h3] at h
              simp only [Option.some.injEq, Prod.mk.injEq] at h
              simp [if_pos h3, ← h.1, ← h.2]
            · rw [if_neg h3] at h
              simp only [if_neg h3]
              by_cases h4 : c = '('
              · rw [if_pos h4] at h
                simp only [if_pos h4]
                cases rest with
                | nil =>
                  simp only [List.nil_append] at h ⊢
                  cases hA : parseAlt f [] with
                  | none => rw [hA] at h; exact Option.noConfusion h
                  | some v₁ =>
                    rw [hA] at h
                    obtain ⟨ri, remI⟩ := v₁
                    simp only at h
                    cases remI with
                    | nil => exact Option.noConfusion h
                    | cons d rest₃ =>
                      exfalso
                      have hsuf := (parse_suffix f).2.2 _ _ hA
                      simp only [List.suffix_nil] at hsuf
                      exact List.noConfusion hsuf
                | cons d rest₂ =>
                  by_cases hd : d = '?'
                  · subst hd; simp only at h; exact Option.noConfusion h
                  · have hred :
                        ∀ (g : Nat) (u : List Char),
                          (match (d :: u : List Char) with
                           | '?' :: _ => none
                           | _ =>
                               match parseAlt g (d :: u) with
                               | none => none
                               | some (r, rem) =>
                                   match rem with
                                   | ')' :: rest₃ => some (r, rest₃)
                                   | _ => none) =
                          (match parseAlt g (d :: u) with
                           | none => none
                           | some (r, rem) =>
                               match rem with
                               | ')' :: rest₃ => some (r, rest₃)
                               | _ => none) := by
                      intro g u; cases d; simp_all
                    rw [hred] at h
                    simp only [List.cons_append]
                    rw [hred]
                    cases hA : parseAlt f (d :: rest₂) with
                    | none => rw [hA] at h; exact Option.noConfusion h
                    | some v₁ =>
                      rw [hA] at h
                      obtain ⟨ri, remI⟩ := v₁
                      simp only at h
                      cases remI with
                      | nil => exact Option.noConfusion h
                      | cons e rest₃ =>
                        by_cases he : e = ')'
                        · subst he
                          simp only [Option.some.injEq, Prod.mk.injEq] at h
                          have hA' := ihA _ _ _ ext hA (by simp)
                          rw [List.cons_append] at hA'
                          rw [hA']
                          simp only [List.cons_append, Option.some.injEq,
                            Prod.mk.injEq]
                          exact ⟨h.1, by rw [← h.2]⟩
                        · exfalso
                          revert h
                          cases e; simp_all
              · rw [if_neg h4] at h
                simp only [if_neg h4]
                by_cases h5 : c = '['
                · rw [if_pos h5] at h
                  simp only [if_pos h5]
                  exact parseClass_append h
                · rw [if_neg h5] at h
                  simp only [if_neg h5]
                  by_cases h6 : c = '\\'
                  · rw [if_pos h6] at h
                    simp only [if_pos h6]
                    cases rest with
                    | nil => exact Option.noConfusion h
                    | cons e rest₂ =>
                      simp only [List.cons_append] at h ⊢
                      cases hE : parseEscape e with
                      | none => rw [hE] at h; exact Option.noConfusion h
                      | some re =>
                        rw [hE] at h
                        simp only [Option.some.injEq, Prod.mk.injEq] at h ⊢
                        exact ⟨h.1, by rw [← h.2]⟩
                  · rw [if_neg h6] at h
                    simp only [if_neg h6]
                    by_cases h7 : isQuantChar c = true
                    · rw [if_pos h7] at h; exact Option.noConfusion h
                    · simp only [h7, Bool.false_eq_true, if_false,
                        Option.some.injEq, Prod.mk.injEq] at h ⊢
                      exact ⟨h.1, by rw [← h.2]⟩
    · -- parseAlt
      intro cs r rem ext h hne
      rw [parseAlt_succ] at h
      cases hS : parseSeq f cs with
      | none => rw [hS] at h; exact Option.noConfusion h
      | some v₁ =>
        rw [hS] at h
        obtain ⟨r₁, rem₁⟩ := v₁
        rw [parseAlt_succ, ihS _ _ _ ext hS]
        cases rem₁ with
        | nil =>
          simp only at h
          simp only [Option.some.injEq, Prod.mk.injEq] at h
          exact absurd h.2.symm hne
        | cons d tail =>
          by_cases hd : d = '|'
          · subst hd
            simp only [List.cons_append] at h ⊢
            cases hA : parseAlt f tail with
            | none => rw [hA] at h; exact Option.noConfusion h
            | some v₂ =>
              rw [hA] at h
              obtain ⟨r₂, rem₂⟩ := v₂
              simp only [Option.some.injEq, Prod.mk.injEq] at h
              have hA' := ihA _ _ _ ext hA (by rw [h.2]; exact hne)
              rw [hA']
              simp only [Option.some.injEq, Prod.mk.injEq]
              exact ⟨h.1, by rw [← h.2]⟩
          · simp only [List.cons_append] at h ⊢
            cases d
            simp_all
            rw [← h.2]
            simp

/-! ### Joining alternatives -/

/-- `parseSeq` never returns a top-level alternation. -/
theorem parseSeq_shape {f : Nat} {cs : List Char} {r : Regex} {rem : List Char}
    (h : parseSeq f cs = some (r, rem)) :
    r = .eps ∨ ∃ a b, r = .cat a b := by
  cases f with
  | zero => simp [parseSeq] at h
  | succ f =>
    rw [parseSeq_succ] at h
    cases cs with
    | nil =>
      simp only [Option.some.injEq, Prod.mk.injEq] at h
      exact Or.inl h.1.symm
    | cons c rest =>
      simp only at h
      by_cases hc : c = '|' ∨ c = ')'
      · rw [if_pos hc] at h
        simp only [Option.some.injEq, Prod.mk.injEq] at h
        exact Or.inl h.1.symm
      · rw [if_neg hc] at h
        cases hT : parseAtom f (c :: rest) with
        | none => rw [hT] at h; exact Option.noConfusion h
        | some v₁ =>
          rw [hT] at h
          obtain ⟨a, rem₁⟩ := v₁
          simp only at h
          cases hQ : parseQuant a rem₁ with
          | none => rw [hQ] at h; exact Option.noConfusion h
          | some v₂ =>
            rw [hQ] at h
            obtain ⟨a₂, rem₂⟩ := v₂
            simp only at h
            cases hS : parseSeq f rem₂ with
            | none => rw [hS] at h; exact Option.noConfusion h
            | some v₃ =>
              rw [hS] at h
              obtain ⟨r₃, rem₃⟩ := v₃
              simp only [Option.some.injEq, Prod.mk.injEq] at h
              exact Or.inr ⟨a₂, r₃, h.1.symm⟩

/-- Append a new rightmost alternative to a parsed alternation chain. -/
def graft : Regex → Regex → Regex
  | .alt a b, r₂ => .alt a (graft b r₂)
  | r, r₂ => .alt r r₂

theorem ends_graft (r r₂ : Regex) (s : List Char) (i : Nat) :
    ends (graft r r₂) s i = ends r s i ++ ends r₂ s i := by
  induction r generalizing i with
  | alt a b iha ihb =>
    simp only [graft, ends, ihb, List.append_assoc]
  | _ => simp [graft, ends]

theorem graft_of_not_alt {r r₂ : Regex} (h : r = .eps ∨ ∃ a b, r = .cat a b) :
    graft r r₂ = .alt r r₂ := by
  rcases h with rfl | ⟨a, b, rfl⟩ <;> rfl

/-- Parsing `cs|ext` when `cs` parses completely: the result grafts the
parse of `ext` onto the alternation chain of `cs`. -/
theorem parseAlt_join :
    ∀ f g : Nat, ∀ cs r ext r₂ rem₂,
      parseAlt f cs = some (r, []) →
      parseAlt g ext = some (r₂, rem₂) →
      parseAlt (f + g) (cs ++ '|' :: ext) = some (graft r r₂, rem₂) := by
  intro f
  induction f with
  | zero => intro g cs r ext r₂ rem₂ h; simp [parseAlt] at h
  | succ f ih =>
    intro g cs r ext r₂ rem₂ h hg
    rw [parseAlt_succ] at h
    cases hS : parseSeq f cs with
    | none => rw [hS] at h; exact Option.noConfusion h
    | some v₁ =>
      rw [hS] at h
      obtain ⟨r₁, rem₁⟩ := v₁
      have hfg : (f + 1) + g = (f + g) + 1 := by omega
      rw [hfg, parseAlt_succ]
      have hS₁ : parseSeq (f + g) cs = some (r₁, rem₁) :=
        parseSeq_mono (by omega) hS
      have hSx := (parse_ext (f + g)).1 _ _ _ ext hS₁
      rw [hSx]
      cases rem₁ with
      | nil =>
        simp only at h
        simp only [Option.some.injEq, Prod.mk.injEq] at h
        simp only [List.nil_append]
        have hg' : parseAlt (f + g) ext = some (r₂, rem₂) :=
          parseAlt_mono (by omega) hg
        rw [hg']
        rw [← h.1]
        rw [graft_of_not_alt (parseSeq_shape hS)]
      | cons d tail =>
        by_cases hd : d = '|'
        · subst hd
          simp only at h
          cases hA : parseAlt f tail with
          | none => rw [hA] at h; exact Option.noConfusion h
          | some v₂ =>
            rw [hA] at h
            obtain ⟨r₂', rem₂'⟩ := v₂
            simp only [Option.some.injEq, Prod.mk.injEq] at h
            have hrem : rem₂' = [] := h.2
            rw [hrem] at hA
            have hrec := ih g tail r₂' ext r₂ rem₂ hA hg
            simp only [List.cons_append]
            rw [hrec]
            rw [← h.1]
            simp [graft]
        · exfalso
          revert h
          cases d
          simp_all

/-- `re.match` truthiness of one pattern string against a metric name
(`false` when the pattern does not compile). -/
def re_match_str (p m : String) : Bool :=
  match re_compile p with
  | some r => reMatch r m
  | none => false

theorem re_compile_eq_some {p : String} {r : Regex} (h : re_compile p = some r) :
    parseAlt (parseFuel p) p.data = some (r, []) := by
  unfold re_compile at h
  cases hA : parseAlt (parseFuel p) p.data with
  | none => rw [hA] at h; exact Option.noConfusion h
  | some v =>
    obtain ⟨r', rem⟩ := v
    rw [hA] at h
    cases rem with
    | nil => simp only [Option.some.injEq] at h; rw [h]
    | cons d t => exact Option.noConfusion h

theorem joinBar_cons_cons (p q : String) (t : List String) :
    joinBar (p :: q :: t) = p ++ "|" ++ joinBar (q :: t) := rfl

/-- The compiled `"|".join` of individually-compiling patterns compiles,
and its `match` truthiness is the disjunction of the individual patterns'
`match` truthinesses. -/
theorem joinBar_semantics :
    ∀ ps : List String, ps ≠ [] → (∀ p ∈ ps, (re_compile p).isSome = true) →
      ∃ R, re_compile (joinBar ps) = some R ∧
        ∀ m : String, reMatch R m = ps.any fun p => re_match_str p m := by
  intro ps
  induction ps with
  | nil => intro h; exact absurd rfl h
  | cons p ps' ih =>
    intro _ hall
    have hp : (re_compile p).isSome = true := hall p (by simp)
    obtain ⟨r_p, hr_p⟩ : ∃ r, re_compile p = some r := by
      cases hc : re_compile p with
      | none => rw [hc] at hp; simp at hp
      | some r => exact ⟨r, rfl⟩
    cases ps' with
    | nil =>
      refine ⟨r_p, by simpa [joinBar] using hr_p, ?_⟩
      intro m
      simp [re_match_str, hr_p]
    | cons q t =>
      obtain ⟨R', hR', hsem⟩ := ih (by simp) (fun x hx => hall x (by simp [hx]))
      have hpA := re_compile_eq_some hr_p
      have hR'A := re_compile_eq_some hR'
      have hjoin := parseAlt_join (parseFuel p) (parseFuel (joinBar (q :: t)))
        p.data r_p (joinBar (q :: t)).data R' [] hpA hR'A
      have hdata : (joinBar (p :: q :: t)).data =
          p.data ++ '|' :: (joinBar (q :: t)).data := by
        rw [joinBar_cons_cons]
        simp [String.data_append]
      have hfuel : parseFuel p + parseFuel (joinBar (q :: t)) ≤
          parseFuel (joinBar (p :: q :: t)) := by
        simp only [parseFuel, joinBar_cons_cons, String.length_append]
        have hone : ("|" : String).length = 1 := rfl
        rw [hone]
        omega
      have hjoin' := parseAlt_mono hfuel hjoin
      refine ⟨graft r_p R', ?_, ?_⟩
      · unfold re_compile
        rw [hdata, hjoin']
      · intro m
        have hg : ends (graft r_p R') m.data 0 = ends r_p m.data 0 ++ ends R' m.data 0 :=
          ends_graft _ _ _ _
        have hb : reMatch (graft r_p R') m = (reMatch r_p m || reMatch R' m) := by
          simp only [reMatch, hg]
          cases ends r_p m.data 0 <;> simp
        rw [hb]
        have hx : re_match_str p m = reMatch r_p m := by simp [re_match_str, hr_p]
        simp [List.any_cons, hx, hsem m]

/-! ### Anchor-wrapped patterns: match at 0 equals full-string match -/

/-- A parsed sequence whose final atom is the `$` anchor. -/
inductive LastAtomEol : Regex → Prop where
  | base : LastAtomEol (.cat .eol .eps)
  | step (a r : Regex) : LastAtomEol r → LastAtomEol (.cat a r)

theorem lastAtomEol_ends {r : Regex} (h : LastAtomEol r) :
    ∀ s i j, j ∈ ends r s i →
      j = s.length ∨ (j + 1 = s.length ∧ s.getD j ' ' = '\n') := by
  induction h with
  | base =>
    intro s i j hj
    rw [mem_ends_cat] at hj
    obtain ⟨k, hk, hj⟩ := hj
    simp only [ends] at hk hj
    by_cases hcond : i = s.length ∨ (i + 1 = s.length ∧ s.getD i ' ' = '\n')
    · rw [if_pos hcond] at hk
      simp at hk hj
      rw [hj, hk]
      exact hcond
    · rw [if_neg hcond] at hk
      simp at hk
  | step a r _ ih =>
    intro s i j hj
    rw [mem_ends_cat] at hj
    obtain ⟨k, _, hj⟩ := hj
    exact ih s k j hj

theorem parseQuant_anchor {a a₂ : Regex} {cs rem : List Char}
    (ha : isAnchor a = true) (h : parseQuant a cs = some (a₂, rem)) :
    a₂ = a ∧ rem = cs := by
  cases cs with
  | nil =>
    simp only [parseQuant, Option.some.injEq, Prod.mk.injEq] at h
    exact ⟨h.1.symm, h.2.symm⟩
  | cons q rest =>
    by_cases hq : isQuantChar q = true
    · simp [parseQuant, hq, ha] at h
    · simp only [parseQuant, hq, Bool.false_eq_true, if_false, Option.some.injEq,
        Prod.mk.injEq] at h
      exact ⟨h.1.symm, h.2.symm⟩

/-- The parsers are fuel-independent on success. -/
theorem parseSeq_det {f g : Nat} {cs : List Char} {v w : Regex × List Char}
    (h1 : parseSeq f cs = some v) (h2 : parseSeq g cs = some w) : v = w := by
  have ha := parseSeq_mono (Nat.le_max_left f g) h1
  have hb := parseSeq_mono (Nat.le_max_right f g) h2
  rw [ha] at hb
  exact Option.some.inj hb

theorem parseAlt_det {f g : Nat} {cs : List Char} {v w : Regex × List Char}
    (h1 : parseAlt f cs = some v) (h2 : parseAlt g cs = some w) : v = w := by
  have ha := parseAlt_mono (Nat.le_max_left f g) h1
  have hb := parseAlt_mono (Nat.le_max_right f g) h2
  rw [ha] at hb
  exact Option.some.inj hb


/-- An atom parsed from `cs ++ ['$']` (where `cs` is nonempty and does not
end in a backslash) leaves the trailing `$` in its remainder. -/
theorem parseAtom_span :
    ∀ f cs a rem, cs ≠ [] → cs.getLast? ≠ some '\\' →
      parseAtom f (cs ++ ['$']) = some (a, rem) →
      ∃ ys, ys <:+ cs ∧ rem = ys ++ ['$'] := by
  intro f cs a rem hne hbs h
  cases f with
  | zero => simp [parseAtom] at h
  | succ f =>
    cases cs with
    | nil => exact absurd rfl hne
    | cons c cs' =>
      rw [List.cons_append, parseAtom_succ] at h
      simp only at h
      by_cases h1 : c = '^'
      · rw [if_pos h1] at h
        simp only [Option.some.injEq, Prod.mk.injEq] at h
        exact ⟨cs', List.suffix_cons c cs', h.2.symm⟩
      · rw [if_neg h1] at h
        by_cases h2 : c = '$'
        · rw [if_pos h2] at h
          simp only [Option.some.injEq, Prod.mk.injEq] at h
          exact ⟨cs', List.suffix_cons c cs', h.2.symm⟩
        · rw [if_neg h2] at h
          by_cases h3 : c = '.'
          · rw [if_pos h3] at h
            simp only [Option.some.injEq, Prod.mk.injEq] at h
            exact ⟨cs', List.suffix_cons c cs', h.2.symm⟩
          · rw [if_neg h3] at h
            by_cases h4 : c = '('
            · rw [if_pos h4] at h
              cases hshape : cs' ++ ['$'] with
              | nil => simp at hshape
              | cons d rest =>
                rw [hshape] at h
                by_cases hd : d = '?'
                · subst hd; simp only at h; exact Option.noConfusion h
                · have hred :
                      (match (d :: rest : List Char) with
                       | '?' :: _ => none
                       | _ =>
                           match parseAlt f (d :: rest) with
                           | none => none
                           | some (r, rem) =>
                               match rem with
                               | ')' :: rest₃ => some (r, rest₃)
                               | _ => none) =
                      (match parseAlt f (d :: rest) with
                       | none => none
                       | some (r, rem) =>
                           match rem with
                           | ')' :: rest₃ => some (r, rest₃)
                           | _ => none) := by
                    cases d; simp_all
                  rw [hred] at h
                  cases hA : parseAlt f (d :: rest) with
                  | none => rw [hA] at h; exact Option.noConfusion h
                  | some v₁ =>
                    rw [hA] at h
                    obtain ⟨ri, remI⟩ := v₁
                    simp only at h
                    cases remI with
                    | nil => exact Option.noConfusion h
                    | cons e rest₃ =>
                      by_cases he : e = ')'
                      · subst he
                        simp only [Option.some.injEq, Prod.mk.injEq] at h
                        have hsuf := (parse_suffix f).2.2 _ _ hA
                        simp only at hsuf
                        rw [← hshape] at hsuf
                        have hnenil : (')' :: rest₃ : List Char) ≠ [] := by simp
                        obtain ⟨ys', hys', heq⟩ := suffix_snoc hsuf hnenil
                        cases ys' with
                        | nil => simp at heq
                        | cons y0 ys₂ =>
                          simp only [List.cons_append, List.cons.injEq] at heq
                          refine ⟨ys₂, ?_, ?_⟩
                          · exact ((List.suffix_cons y0 ys₂).trans hys').trans
                              (List.suffix_cons c cs')
                          · rw [← h.2, heq.2]
                      · exfalso
                        revert h
                        cases e; simp_all
            · rw [if_neg h4] at h
              by_cases h5 : c = '['
              · rw [if_pos h5] at h
                obtain ⟨ys, hys, heq⟩ := parseClass_span h
                exact ⟨ys, hys.trans (List.suffix_cons c cs'), heq⟩
              · rw [if_neg h5] at h
                by_cases h6 : c = '\\'
                · rw [if_pos h6] at h
                  cases cs' with
                  | nil =>
                    exfalso
                    apply hbs
                    rw [h6]
                    rfl
                  | cons e cs'' =>
                    simp only [List.cons_append] at h
                    cases hE : parseEscape e with
                    | none => rw [hE] at h; exact Option.noConfusion h
                    | some re =>
                      rw [hE] at h
                      simp only [Option.some.injEq, Prod.mk.injEq] at h
                      exact ⟨cs'', (List.suffix_cons e cs'').trans
                        (List.suffix_cons c (e :: cs'')), h.2.symm⟩
                · rw [if_neg h6] at h
                  by_cases h7 : isQuantChar c = true
                  · rw [if_pos h7] at h; exact Option.noConfusion h
                  · simp only [h7, Bool.false_eq_true, if_false, Option.some.injEq,
                      Prod.mk.injEq] at h
                    exact ⟨cs', List.suffix_cons c cs', h.2.symm⟩

theorem parseSeq_shape_eol :
    ∀ f cs r, '|' ∉ cs → cs.getLast? ≠ some '\\' →
      parseSeq f (cs ++ ['$']) = some (r, []) → LastAtomEol r := by
  intro f
  induction f with
  | zero => intro cs r _ _ h; simp [parseSeq] at h
  | succ f ih =>
    intro cs r hbar hbs h
    cases cs with
    | nil =>
      have hc : parseSeq 3 ([] ++ ['$']) = some (.cat .eol .eps, []) := rfl
      have := parseSeq_det h hc
      simp only [Prod.mk.injEq] at this
      rw [this.1]
      exact LastAtomEol.base
    | cons c cs' =>
      rw [parseSeq_succ] at h
      rw [List.cons_append] at h
      simp only at h
      by_cases hc : c = '|' ∨ c = ')'
      · rcases hc with rfl | rfl
        · exact absurd (by simp : '|' ∈ '|' :: cs') hbar
        · rw [if_pos (Or.inr rfl)] at h
          simp at h
      · rw [if_neg hc] at h
        rw [← List.cons_append] at h
        cases hT : parseAtom f ((c :: cs') ++ ['$']) with
        | none => rw [hT] at h; exact Option.noConfusion h
        | some v₁ =>
          rw [hT] at h
          obtain ⟨a, rem₁⟩ := v₁
          obtain ⟨ys, hys, hrem₁⟩ := parseAtom_span f (c :: cs') a rem₁ (by simp) hbs hT
          simp only at h
          cases hQ : parseQuant a rem₁ with
          | none => rw [hQ] at h; exact Option.noConfusion h
          | some v₂ =>
            rw [hQ] at h
            obtain ⟨a₂, rem₂⟩ := v₂
            rw [hrem₁] at hQ
            obtain ⟨ys₂, hys₂, hrem₂⟩ := parseQuant_span hQ
            simp only at h
            cases hS : parseSeq f rem₂ with
            | none => rw [hS] at h; exact Option.noConfusion h
            | some v₃ =>
              rw [hS] at h
              obtain ⟨r₃, rem₃⟩ := v₃
              simp only [Option.some.injEq, Prod.mk.injEq] at h
              have hys₂' : ys₂ <:+ c :: cs' := hys₂.trans hys
              have hbar₂ : '|' ∉ ys₂ := fun hm => hbar (hys₂'.subset hm)
              have hbs₂ : ys₂.getLast? ≠ some '\\' := by
                cases hy : ys₂ with
                | nil => simp
                | cons z zs =>
                  rw [← hy]
                  rw [← getLast?_of_suffix hys₂' (by rw [hy]; simp)]
                  exact hbs
              rw [hrem₂] at hS
              have hrem₃ : rem₃ = [] := h.2
              rw [hrem₃] at hS
              have := ih ys₂ r₃ hbar₂ hbs₂ hS
              rw [← h.1]
              exact LastAtomEol.step a₂ r₃ this


theorem getLast?_eq_getD {l : List Char} {j : Nat} (h : j + 1 = l.length) :
    l.getLast? = some (l.getD j ' ') := by
  have hj : j < l.length := by omega
  rw [List.getLast?_eq_getElem?]
  rw [List.getD_eq_getElem?_getD]
  rw [List.getElem?_eq_getElem hj]
  have : l.length - 1 = j := by omega
  rw [this, List.getElem?_eq_getElem hj]
  rfl

theorem ends_cat_bol (X : Regex) (s : List Char) :
    ends (.cat .bol X) s 0 = ends X s 0 := by
  simp [ends]

/-- For a pattern produced by anchor-wrapping a line with no `|` that does
not end in a backslash, `match` at position 0 and full-string match agree on
metric names that do not end in a newline. -/
theorem decorated_match_iff_full {l : String} {r : Regex}
    (hparse : re_compile ("^" ++ l ++ "$") = some r)
    (hbar : '|' ∉ l.data) (hbs : l.data.getLast? ≠ some '\\')
    (m : String) (hnl : m.data.getLast? ≠ some '\n') :
    reMatch r m = reFullmatch r m := by
  have hA := re_compile_eq_some hparse
  have hdd : ("^" ++ l ++ "$").data = '^' :: (l.data ++ ['$']) := by
    simp [String.data_append]
  rw [hdd] at hA
  -- peel the top-level parseAlt
  obtain ⟨F, hF⟩ : ∃ F, parseFuel ("^" ++ l ++ "$") = F + 1 :=
    ⟨3 * ("^" ++ l ++ "$").length + 2, rfl⟩
  rw [hF] at hA
  rw [parseAlt_succ] at hA
  cases hS : parseSeq F ('^' :: (l.data ++ ['$'])) with
  | none => rw [hS] at hA; exact Option.noConfusion hA
  | some v₁ =>
    rw [hS] at hA
    obtain ⟨r₁, rem₁⟩ := v₁
    have hrem₁ : rem₁ = [] ∧ r₁ = r := by
      cases rem₁ with
      | nil =>
        simp only [Option.some.injEq, Prod.mk.injEq] at hA
        exact ⟨rfl, hA.1⟩
      | cons d tail =>
        by_cases hd : d = '|'
        · subst hd
          exfalso
          have hsuf := (parse_suffix F).1 _ _ hS
          simp only at hsuf
          have : '|' ∈ '^' :: (l.data ++ ['$']) := hsuf.subset (by simp)
          simp at this
          exact hbar this
        · exfalso
          revert hA
          cases d
          simp_all
    obtain ⟨hrem₁, hr₁⟩ := hrem₁
    rw [hrem₁, hr₁] at hS
    -- peel the parseSeq layer: `^` atom, no quantifier allowed on an anchor
    cases F with
    | zero => simp [parseSeq] at hS
    | succ g =>
      rw [parseSeq_succ] at hS
      simp only at hS
      rw [if_neg (by simp : ¬('^' = '|' ∨ '^' = ')'))] at hS
      cases g with
      | zero => simp [parseAtom] at hS
      | succ k =>
        have hbolT : parseAtom (k + 1) ('^' :: (l.data ++ ['$'])) =
            some (.bol, l.data ++ ['$']) := rfl
        rw [hbolT] at hS
        simp only at hS
        cases hQ : parseQuant Regex.bol (l.data ++ ['$']) with
        | none => rw [hQ] at hS; exact Option.noConfusion hS
        | some v₂ =>
          rw [hQ] at hS
          obtain ⟨a₂, rem₂⟩ := v₂
          obtain ⟨ha₂, hrem₂⟩ := parseQuant_anchor (by rfl) hQ
          simp only at hS
          cases hS₃ : parseSeq (k + 1) rem₂ with
          | none => rw [hS₃] at hS; exact Option.noConfusion hS
          | some v₃ =>
            rw [hS₃] at hS
            obtain ⟨r₃, rem₃⟩ := v₃
            simp only [Option.some.injEq, Prod.mk.injEq] at hS
            have hrshape : r = .cat .bol r₃ := by rw [← hS.1, ha₂]
            have hrem₃ : rem₃ = [] := hS.2
            rw [hrem₂, hrem₃] at hS₃
            have heol := parseSeq_shape_eol (k + 1) l.data r₃ hbar hbs hS₃
            -- semantics
            rw [hrshape]
            rw [reMatch, reFullmatch, ends_cat_bol]
            cases hmt : (ends r₃ m.data 0).isEmpty with
            | true =>
              have : ends r₃ m.data 0 = [] := by
                cases hx : ends r₃ m.data 0 with
                | nil => rfl
                | cons p ps => rw [hx] at hmt; simp at hmt
              simp [this]
            | false =>
              have hne : ends r₃ m.data 0 ≠ [] := by
                intro hx; rw [hx] at hmt; simp at hmt
              obtain ⟨j, hj⟩ := List.exists_mem_of_ne_nil _ hne
              have := lastAtomEol_ends heol m.data 0 j hj
              rcases this with hlen | ⟨hlen, hch⟩
              · rw [hlen] at hj
                simpa using hj
              · exfalso
                apply hnl
                rw [getLast?_eq_getD hlen, hch]

/-! ### Loader and classifier state lemmas -/

theorem dropWhile_idem {p : Char → Bool} :
    ∀ l : List Char, (l.dropWhile p).dropWhile p = l.dropWhile p := by
  intro l
  induction l with
  | nil => rfl
  | cons c t ih =>
    by_cases hc : p c = true
    · simp [List.dropWhile_cons, hc, ih]
    · simp [List.dropWhile_cons, hc]

theorem dropWhile_head_false {p : Char → Bool} :
    ∀ (l : List Char) (x : Char), (l.dropWhile p).head? = some x → p x = false := by
  intro l
  induction l with
  | nil => intro x h; simp at h
  | cons c t ih =>
    intro x h
    by_cases hc : p c = true
    · rw [List.dropWhile_cons, if_pos hc] at h
      exact ih x h
    · rw [List.dropWhile_cons, if_neg hc] at h
      simp at h
      rw [← h]
      exact Bool.not_eq_true _ ▸ (by simpa using hc)

theorem pyStripList_idem (cs : List Char) : pyStripList (pyStripList cs) = pyStripList cs := by
  set u := cs.dropWhile isPyWs with hu
  set v := u.reverse.dropWhile isPyWs with hv
  have hw : pyStripList cs = v.reverse := rfl
  rw [hw]
  by_cases hvne : v = []
  · rw [hvne]
    rfl
  · have hvsuf : v <:+ u.reverse := by rw [hv]; exact List.dropWhile_suffix _
    have hlast : u.reverse.getLast? = v.getLast? := getLast?_of_suffix hvsuf hvne
    have hheadu : u.reverse.getLast? = u.head? := by
      rw [List.getLast?_reverse]
    have hheadrev : v.reverse.head? = v.getLast? := by
      rw [List.head?_reverse]
    have hhead : v.reverse.head? = u.head? := by rw [hheadrev, ← hlast, hheadu]
    have hne' : v.reverse ≠ [] := by simpa using hvne
    obtain ⟨x, hx⟩ : ∃ x, v.reverse.head? = some x := by
      cases hh : v.reverse with
      | nil => exact absurd hh hne'
      | cons b bt => exact ⟨b, rfl⟩
    have hpx : isPyWs x = false := by
      apply dropWhile_head_false (p := isPyWs) cs
      rw [← hu, ← hhead, hx]
    have hdw1 : v.reverse.dropWhile isPyWs = v.reverse := by
      cases hh : v.reverse with
      | nil => rfl
      | cons b bt =>
        have hbx : b = x := by rw [hh] at hx; simpa using hx
        rw [hbx]
        rw [List.dropWhile_cons, if_neg (by simp [hpx])]
    have hdw2 : v.dropWhile isPyWs = v := by
      rw [hv, dropWhile_idem]
    show pyStripList v.reverse = v.reverse
    unfold pyStripList
    rw [hdw1, List.reverse_reverse, hdw2]

theorem pyStrip_idem (s : String) : pyStrip (pyStrip s) = pyStrip s := by
  unfold pyStrip
  rw [pyStripList_idem]

theorem pyStripList_subset (cs : List Char) : pyStripList cs ⊆ cs := by
  intro x hx
  unfold pyStripList at hx
  rw [List.mem_reverse] at hx
  have h1 := (List.dropWhile_suffix (l := (cs.dropWhile isPyWs).reverse) isPyWs).subset hx
  rw [List.mem_reverse] at h1
  exact (List.dropWhile_suffix isPyWs).subset h1


open WhitelistConfigReader

/-- On a readable file the loader succeeds and returns the filtered list,
leaving the file untouched. -/
theorem loader_present (pta cok : Bool) (content : List String) :
    get_regex_list pta cok (.present content) =
      .ok (_filter_valid_regexes pta (content.map pyStrip), .present content) := rfl

theorem filter_valid_ne_nil (pta : Bool) (lines : List String) :
    _filter_valid_regexes pta lines ≠ [] := by
  unfold _filter_valid_regexes
  simp only
  split
  · simp
  · rename_i hne
    simpa using hne

/-- Every pattern the loader keeps compiles, and is the anchor-wrap of a
stripped source line (or of the empty line, for the fallback). -/
theorem loader_mem {pta : Bool} {content : List String} {p : String}
    (hp : p ∈ _filter_valid_regexes pta (content.map pyStrip)) :
    (re_compile p).isSome = true ∧
      (p = "^" ++ "" ++ "$" ∨ ∃ l ∈ content, p = "^" ++ pyStrip l ++ "$") := by
  unfold _filter_valid_regexes at hp
  simp only at hp
  by_cases hempty :
      ((content.map pyStrip).filter (_is_valid_regex pta)).map _decorate_regex_line = []
  · rw [if_pos (by simp [hempty])] at hp
    simp at hp
    constructor
    · rw [hp]; rfl
    · left; rw [hp]; rfl
  · rw [if_neg (by simpa using hempty)] at hp
    rw [List.mem_map] at hp
    obtain ⟨s, hs, hdec⟩ := hp
    rw [List.mem_filter] at hs
    obtain ⟨hs_mem, hs_valid⟩ := hs
    rw [List.mem_map] at hs_mem
    obtain ⟨l, hl, hstrip⟩ := hs_mem
    constructor
    · unfold _is_valid_regex at hs_valid
      rw [Bool.and_eq_true] at hs_valid
      rw [hdec] at hs_valid
      exact hs_valid.2
    · right
      refine ⟨l, hl, ?_⟩
      rw [← hdec]
      unfold _decorate_regex_line
      rw [← hstrip, pyStrip_idem]
      rfl

/-- A fresh classifier's first verdict is the raw matcher verdict. -/
theorem is_whitelisted_init (r : Regex) (ok ok' : Bool) (m : String) :
    (is_whitelisted (Whitelist.init r ok) m ok').1 = reMatch r m := by
  unfold is_whitelisted Whitelist.init cacheLookup
  simp only
  cases reMatch r m <;> simp


/-- After a call for `m`, the cache holds `m`'s verdict. -/
theorem is_whitelisted_cache {w : Whitelist} {m : String} {ok : Bool} {b : Bool}
    {w₁ : Whitelist} (h : is_whitelisted w m ok = (b, w₁)) :
    cacheLookup w₁.allowed_metrics m = some b := by
  unfold is_whitelisted at h
  cases hl : cacheLookup w.allowed_metrics m with
  | some v =>
    rw [hl] at h
    simp only [Prod.mk.injEq] at h
    rw [← h.2, hl, h.1]
  | none =>
    rw [hl] at h
    by_cases hm : reMatch w.regex m = true
    · rw [if_pos hm] at h
      simp only [Prod.mk.injEq] at h
      rw [← h.2]
      simp [cacheLookup, ← h.1]
    · rw [if_neg hm] at h
      simp only [Prod.mk.injEq] at h
      rw [← h.2]
      simp [cacheLookup, ← h.1]

/-- Cached verdicts survive any later call. -/
theorem is_whitelisted_preserves {w : Whitelist} {m x : String} {ok : Bool} {v : Bool}
    (h : cacheLookup w.allowed_metrics m = some v) :
    cacheLookup (is_whitelisted w x ok).2.allowed_metrics m = some v := by
  unfold is_whitelisted
  cases hl : cacheLookup w.allowed_metrics x with
  | some vx => simpa using h
  | none =>
    have hxm : x ≠ m := by
      intro he
      rw [he] at hl
      rw [hl] at h
      exact Option.noConfusion h
    by_cases hm : reMatch w.regex x = true
    · rw [if_pos hm]
      simp only [cacheLookup]
      rw [if_neg hxm]
      exact h
    · rw [if_neg hm]
      simp only [cacheLookup]
      rw [if_neg hxm]
      exact h

theorem run_calls_preserves {m : String} {v : Bool} :
    ∀ (calls : List (String × Bool)) (w : Whitelist),
      cacheLookup w.allowed_metrics m = some v →
      cacheLookup (run_calls w calls).allowed_metrics m = some v := by
  intro calls
  induction calls with
  | nil => intro w h; exact h
  | cons c t ih =>
    intro w h
    show cacheLookup (run_calls (is_whitelisted w c.1 c.2).2 t).allowed_metrics m = some v
    exact ih _ (is_whitelisted_preserves h)

/-- A cache hit returns the cached verdict and leaves the state untouched. -/
theorem is_whitelisted_hit {w : Whitelist} {m : String} {v : Bool} (ok : Bool)
    (h : cacheLookup w.allowed_metrics m = some v) :
    is_whitelisted w m ok = (v, w) := by
  unfold is_whitelisted
  rw [h]


/-- Invariant tying a classifier's state to the set of names already
classified: the cache stores each seen name's matcher verdict, and the
audit log holds exactly one entry per seen rejected name. -/
def CacheInv (r : Regex) (seen : List String) (w : Whitelist) : Prop :=
  w.regex = r ∧
  (∀ x, cacheLookup w.allowed_metrics x =
    if x ∈ seen then some (reMatch r x) else none) ∧
  (∀ x, w.blocked_log.count x =
    if x ∈ seen ∧ reMatch r x = false then 1 else 0)

theorem cacheInv_init (r : Regex) (ok : Bool) : CacheInv r [] (Whitelist.init r ok) := by
  refine ⟨rfl, ?_, ?_⟩ <;> intro x <;> simp [Whitelist.init, cacheLookup]

theorem cacheInv_congr {r : Regex} {s₁ s₂ : List String} {w : Whitelist}
    (hmem : ∀ x, x ∈ s₁ ↔ x ∈ s₂) (h : CacheInv r s₁ w) : CacheInv r s₂ w := by
  obtain ⟨h1, h2, h3⟩ := h
  refine ⟨h1, ?_, ?_⟩ <;> intro x
  · rw [h2 x]
    by_cases hx : x ∈ s₁
    · rw [if_pos hx, if_pos ((hmem x).mp hx)]
    · rw [if_neg hx, if_neg (fun hc => hx ((hmem x).mpr hc))]
  · rw [h3 x]
    by_cases hx : x ∈ s₁
    · by_cases hv : reMatch r x = false
      · rw [if_pos ⟨hx, hv⟩, if_pos ⟨(hmem x).mp hx, hv⟩]
      · rw [if_neg (fun hc => hv hc.2), if_neg (fun hc => hv hc.2)]
    · rw [if_neg (fun hc => hx hc.1),
        if_neg (fun hc => hx ((hmem x).mpr hc.1))]

theorem cacheInv_step {r : Regex} {seen : List String} {w : Whitelist} (n : String)
    (h : CacheInv r seen w) :
    CacheInv r (n :: seen) (is_whitelisted w n true).2 := by
  obtain ⟨h1, h2, h3⟩ := h
  unfold is_whitelisted
  rw [h2 n]
  by_cases hn : n ∈ seen
  · rw [if_pos hn]
    simp only
    refine ⟨h1, ?_, ?_⟩ <;> intro x
    · rw [h2 x]
      by_cases hx : x ∈ seen
      · rw [if_pos hx, if_pos (by simp [hx])]
      · rw [if_neg hx, if_neg (by simp; exact ⟨fun he => hx (he ▸ hn), hx⟩)]
    · rw [h3 x]
      by_cases hx : x ∈ seen
      · by_cases hv : reMatch r x = false
        · rw [if_pos ⟨hx, hv⟩, if_pos ⟨by simp [hx], hv⟩]
        · rw [if_neg (fun hc => hv hc.2), if_neg (fun hc => hv hc.2)]
      · rw [if_neg (fun hc => hx hc.1)]
        rw [if_neg ?_]
        rintro ⟨hc1, hc2⟩
        simp at hc1
        rcases hc1 with rfl | hc1
        · exact hx hn
        · exact hx hc1
  · rw [if_neg hn]
    simp only
    rw [h1]
    by_cases hm : reMatch r n = true
    · rw [if_pos hm]
      refine ⟨rfl, ?_, ?_⟩ <;> intro x
      · simp only [cacheLookup]
        by_cases hx : n = x
        · rw [if_pos hx, ← hx, hm]
          rw [if_pos (by simp)]
        · rw [if_neg hx, h2 x]
          by_cases hxs : x ∈ seen
          · rw [if_pos hxs, if_pos (by simp [hxs])]
          · rw [if_neg hxs, if_neg (by simp; exact ⟨fun he => hx he.symm, hxs⟩)]
      · simp only
        rw [h3 x]
        by_cases hxs : x ∈ seen
        · by_cases hv : reMatch r x = false
          · rw [if_pos ⟨hxs, hv⟩, if_pos ⟨by simp [hxs], hv⟩]
          · rw [if_neg (fun hc => hv hc.2), if_neg (fun hc => hv hc.2)]
        · rw [if_neg (fun hc => hxs hc.1)]
          rw [if_neg ?_]
          rintro ⟨hc1, hc2⟩
          simp at hc1
          rcases hc1 with rfl | hc1
          · rw [hm] at hc2; exact Bool.noConfusion hc2
          · exact hxs hc1
    · rw [if_neg hm]
      have hmf : reMatch r n = false := by
        cases hv : reMatch r n
        · rfl
        · exact absurd hv hm
      refine ⟨rfl, ?_, ?_⟩ <;> intro x
      · simp only [cacheLookup]
        by_cases hx : n = x
        · rw [if_pos hx, ← hx, hmf]
          rw [if_pos (by simp)]
        · rw [if_neg hx, h2 x]
          by_cases hxs : x ∈ seen
          · rw [if_pos hxs, if_pos (by simp [hxs])]
          · rw [if_neg hxs, if_neg (by simp; exact ⟨fun he => hx he.symm, hxs⟩)]
      · show List.count x (w.blocked_log ++ [n]) =
            if x ∈ n :: seen ∧ reMatch r x = false then 1 else 0
        rw [List.count_append, h3 x]
        by_cases hx : x = n
        · subst hx
          rw [if_neg (fun hc => hn hc.1), if_pos ⟨by simp, hmf⟩]
          simp
        · have hone : List.count x [n] = 0 := List.count_eq_zero.mpr (by simp [hx])
          rw [hone]
          have hmem : (x ∈ n :: seen) ↔ x ∈ seen := by simp [hx]
          by_cases hxs : x ∈ seen ∧ reMatch r x = false
          · rw [if_pos hxs, if_pos ⟨by simp [hxs.1], hxs.2⟩]
          · rw [if_neg hxs, if_neg (fun hc => hxs ⟨hmem.mp hc.1, hc.2⟩)]

theorem run_calls_inv {r : Regex} :
    ∀ (names : List String) (seen : List String) (w : Whitelist),
      CacheInv r seen w →
      CacheInv r (names.reverse ++ seen)
        (run_calls w (names.map fun n => (n, true))) := by
  intro names
  induction names with
  | nil => intro seen w h; simpa using h
  | cons n ns ih =>
    intro seen w h
    have hstep := cacheInv_step n h
    have := ih (n :: seen) _ hstep
    refine cacheInv_congr ?_ this
    intro x
    simp
    try tauto

/-! ### Claim theorems -/

/-- C4: across a freshly constructed classifier's lifetime, under sequential
calls with a healthy audit log, each rejected metric name is appended to the
audit log exactly once (by its first classification), and an accepted name
is never appended. -/
theorem c4_rejection_logged_exactly_once (r : Regex) (names : List String) (m : String) :
    ((run_calls (Whitelist.init r true) (names.map fun n => (n, true))).blocked_log).count m
      = if m ∈ names ∧ reMatch r m = false then 1 else 0 := by
  have hinv := run_calls_inv names [] (Whitelist.init r true) (cacheInv_init r true)
  have h3 := hinv.2.2 m
  rw [h3]
  by_cases hm : m ∈ names ∧ reMatch r m = false
  · rw [if_pos ⟨by simpa using hm.1, hm.2⟩, if_pos hm]
  · rw [if_neg ?_, if_neg hm]
    intro hc
    exact hm ⟨by simpa using hc.1, hc.2⟩

/-- C5: once `is_whitelisted` has been called for `m`, every later call for
`m` — after any interleaved calls — returns the same boolean and leaves the
classifier state (cache and audit log) completely unchanged; the cache-hit
path never evaluates the matcher. -/
theorem c5_cached_verdict_stable (w : Whitelist) (m : String) (ok₁ ok₂ : Bool)
    (b : Bool) (w₁ : Whitelist) (calls : List (String × Bool))
    (h : is_whitelisted w m ok₁ = (b, w₁)) :
    is_whitelisted (run_calls w₁ calls) m ok₂ = (b, run_calls w₁ calls) :=
  is_whitelisted_hit ok₂ (run_calls_preserves calls w₁ (is_whitelisted_cache h))

theorem c5_cached_verdict_stable_witness :
    is_whitelisted (Whitelist.init (.cat .bol (.cat .eol .eps)) true) "a" true
        = (false, ⟨.cat .bol (.cat .eol .eps), [("a", false)], ["a"]⟩) ∧
    is_whitelisted
        (run_calls (⟨.cat .bol (.cat .eol .eps), [("a", false)], ["a"]⟩ : Whitelist)
          [("b", true)]) "a" false
      = (false,
        run_calls (⟨.cat .bol (.cat .eol .eps), [("a", false)], ["a"]⟩ : Whitelist)
          [("b", true)]) :=
  ⟨by decide,
   c5_cached_verdict_stable (Whitelist.init (.cat .bol (.cat .eol .eps)) true) "a"
     true false false ⟨.cat .bol (.cat .eol .eps), [("a", false)], ["a"]⟩
     [("b", true)] (by decide)⟩

/-- C6 as stated is false: `_create_whitelist_file` is called from inside
the `except IOError` handler of `get_regex_list`, and its own
`open(path, 'w')` is unguarded, so for a missing file whose re-creation
fails the creation `IOError` propagates to the caller instead of the
`[EMPTY_REGEX]` fallback being returned — while the same missing file with
a successful creation does get the fallback. -/
theorem c6_claim_counterexample :
    get_regex_list false false .absent = .error 13 ∧
    get_regex_list false true .absent = .ok ([EMPTY_REGEX], .present []) := ⟨rfl, rfl⟩

/-- C6 (amended): `get_regex_list` swallows every read failure and returns
the `[EMPTY_REGEX]` fallback — logging a non-`ENOENT` error and recreating
a missing file empty — with the single exception that when the file is
missing and its re-creation itself fails, the creation error propagates to
the caller; on a readable file it never errors. -/
theorem c6_loader_error_handling (pta cok : Bool) (content : List String) :
    get_regex_list pta cok .unreadable = .ok ([EMPTY_REGEX], .unreadable) ∧
    get_regex_list pta cok .absent =
      (if cok then .ok ([EMPTY_REGEX], .present []) else .error 13) ∧
    get_regex_list pta cok (.present content) =
      .ok (_filter_valid_regexes pta (content.map pyStrip), .present content) := by
  refine ⟨rfl, ?_, rfl⟩
  cases cok <;> rfl

/-- C7: on a readable file, the loader keeps exactly the stripped lines that
pass validation, anchor-wrapped, in file order — an invalid line is dropped
without aborting the remaining lines — and falls back to `[EMPTY_REGEX]`
when no line survives. -/
theorem c7_filter_valid_in_order (pta cok : Bool) (fs : FileState) (lines : List String)
    (h : readLines fs = .ok lines) :
    get_regex_list pta cok fs =
      .ok ((if (lines.map pyStrip).filter (_is_valid_regex pta) = [] then [EMPTY_REGEX]
        else ((lines.map pyStrip).filter (_is_valid_regex pta)).map _decorate_regex_line),
        fs) := by
  cases fs with
  | absent => simp [readLines] at h
  | unreadable => simp [readLines] at h
  | present l =>
    have hl : l = lines := by simpa [readLines] using h
    subst hl
    rw [loader_present]
    have hlist : _filter_valid_regexes pta (l.map pyStrip) =
        if (l.map pyStrip).filter (_is_valid_regex pta) = [] then [EMPTY_REGEX]
        else ((l.map pyStrip).filter (_is_valid_regex pta)).map _decorate_regex_line := by
      unfold _filter_valid_regexes
      simp only
      by_cases hfe : (l.map pyStrip).filter (_is_valid_regex pta) = []
      · rw [if_pos (by rw [hfe]; simp), if_pos hfe]
      · rw [if_neg (by simpa using hfe), if_neg hfe]
    rw [hlist]

theorem c7_filter_valid_in_order_witness :
    get_regex_list false true (.present ["(", "ok"]) =
      .ok ((if (["(", "ok"].map pyStrip).filter (_is_valid_regex false) = [] then [EMPTY_REGEX]
        else ((["(", "ok"].map pyStrip).filter
          (_is_valid_regex false)).map _decorate_regex_line),
        .present ["(", "ok"]) :=
  c7_filter_valid_in_order false true (.present ["(", "ok"]) ["(", "ok"] rfl

/-- C8: audit-log failures are invisible to classification: the verdict, the
decision cache, and the matcher are identical whether the log append
succeeds or fails, and construction succeeds whether or not the log file
could be truncated. -/
theorem c8_audit_health_invisible (w : Whitelist) (m : String) (ok ok' : Bool)
    (r : Regex) (cok cok' : Bool) :
    (is_whitelisted w m ok).1 = (is_whitelisted w m ok').1 ∧
    (is_whitelisted w m ok).2.allowed_metrics = (is_whitelisted w m ok').2.allowed_metrics ∧
    (is_whitelisted w m ok).2.regex = (is_whitelisted w m ok').2.regex ∧
    Whitelist.init r cok = Whitelist.init r cok' := by
  refine ⟨?_, ?_, ?_, rfl⟩ <;>
    (unfold is_whitelisted
     cases cacheLookup w.allowed_metrics m with
     | some v => simp
     | none =>
       by_cases hm : reMatch w.regex m = true
       · simp [hm]
       · simp [hm])


/-- C10: a blank or whitespace-only line is not dropped: it strips to the
empty string, passes the safety detector, anchor-wraps to `^$`, compiles,
and is kept; a file of only blank lines therefore takes the non-fallback
path and yields one `^$` per line. -/
theorem c10_blank_lines_kept (pta cok : Bool) (lines : List String)
    (hne : lines ≠ []) (hblank : ∀ l ∈ lines, pyStrip l = "") :
    get_regex_list pta cok (.present lines) =
      .ok (lines.map (fun _ => EMPTY_REGEX), .present lines) := by
  have hvalid_empty : _is_valid_regex pta "" = true := by
    cases pta <;> decide
  have hfilter : (lines.map pyStrip).filter (_is_valid_regex pta) = lines.map pyStrip := by
    apply List.filter_eq_self.mpr
    intro s hs
    rw [List.mem_map] at hs
    obtain ⟨l, hl, rfl⟩ := hs
    rw [hblank l hl]
    exact hvalid_empty
  rw [loader_present]
  have hlist : _filter_valid_regexes pta (lines.map pyStrip) =
      lines.map fun _ => EMPTY_REGEX := by
    unfold _filter_valid_regexes
    simp only [hfilter]
    have hmap : (lines.map pyStrip).map _decorate_regex_line =
        lines.map fun _ => EMPTY_REGEX := by
      rw [List.map_map]
      apply List.map_congr_left
      intro l hl
      show _decorate_regex_line (pyStrip l) = EMPTY_REGEX
      rw [hblank l hl]
      rfl
    rw [hmap]
    rw [if_neg (by simp [List.isEmpty_iff, hne])]
  rw [hlist]

theorem c10_blank_lines_kept_witness :
    (["", "   "] : List String) ≠ [] ∧
    (∀ l ∈ ["", "   "], pyStrip l = "") ∧
    get_regex_list false true (.present ["", "   "]) =
      .ok (["", "   "].map (fun _ => EMPTY_REGEX), .present ["", "   "]) :=
  ⟨by decide, by decide, c10_blank_lines_kept false true ["", "   "] (by decide) (by decide)⟩

/-- C2 as stated is false on two counts: the fallback pattern `^$` also
matches the one-character metric name `"\n"` (Python's `$` matches before
a trailing newline), so the fallback does not reject every non-empty name;
and when re-creating the missing file itself fails, the loader propagates
that `IOError` instead of returning the fallback at all. -/
theorem c2_claim_counterexample :
    get_regex_list false true .absent = .ok ([EMPTY_REGEX], .present []) ∧
    ("\n" : String) ≠ "" ∧
    verdict_from_list [EMPTY_REGEX] "\n" = true ∧
    get_regex_list false false .absent = .error 13 := by
  refine ⟨rfl, by decide, by decide, rfl⟩

/-- C2 (amended): with a missing pattern-source file whose re-creation
succeeds, the loader returns exactly `[EMPTY_REGEX]` and creates the file
empty — never touching an existing file — and a classifier built from that
list rejects every non-empty metric name other than `"\n"`. -/
theorem c2_missing_file_fallback (pta : Bool) (m : String)
    (hm0 : m ≠ "") (hm1 : m ≠ "\n") :
    get_regex_list pta true .absent = .ok ([EMPTY_REGEX], .present []) ∧
    (∀ cok fs, path_exists fs = true → _create_whitelist_file cok fs = .ok fs) ∧
    verdict_from_list [EMPTY_REGEX] m = false := by
  refine ⟨rfl, ?_, ?_⟩
  · intro cok fs h
    unfold _create_whitelist_file
    rw [if_pos h]
  · have hc : compile_whitelist [EMPTY_REGEX] = some (.cat .bol (.cat .eol .eps)) := rfl
    unfold verdict_from_list
    rw [hc]
    simp only
    rw [is_whitelisted_init]
    rw [reMatch, ends_cat_bol]
    have hdata : m.data ≠ [] := by
      intro hd
      apply hm0
      show m = String.mk []
      cases m
      simp_all
    have hdata1 : m.data ≠ ['\n'] := by
      intro hd
      apply hm1
      show m = String.mk ['\n']
      cases m
      simp_all
    have hends : ends (.cat .eol .eps) m.data 0 = [] := by
      show ((ends .eol m.data 0).flatMap fun k => ends .eps m.data k) = []
      have : ends .eol m.data 0 = [] := by
        show (if (0 = m.data.length ∨
            (0 + 1 = m.data.length ∧ m.data.getD 0 ' ' = '\n')) then [0] else []) = []
        rw [if_neg ?_]
        rintro (h0 | ⟨hlen, hch⟩)
        · exact hdata (List.length_eq_zero.mp h0.symm)
        · apply hdata1
          cases hml : m.data with
          | nil => exact absurd hml hdata
          | cons c t =>
            rw [hml] at hlen hch
            simp at hlen
            have ht : t = [] := by simpa using hlen
            rw [ht] at hch ⊢
            simp at hch
            rw [hch]
      rw [this]
      rfl
    rw [hends]
    rfl

theorem c2_missing_file_fallback_witness :
    ("cpu" : String) ≠ "" ∧ ("cpu" : String) ≠ "\n" ∧
    (get_regex_list false true .absent = .ok ([EMPTY_REGEX], .present []) ∧
     (∀ cok fs, path_exists fs = true → _create_whitelist_file cok fs = .ok fs) ∧
     verdict_from_list [EMPTY_REGEX] "cpu" = false) :=
  ⟨by decide, by decide, c2_missing_file_fallback false "cpu" (by decide) (by decide)⟩

/-- C9 as stated is false for general lists containing `^$`: a preceding
pattern ending in a lone backslash makes the join's separator `|` part of
an escape (`\|`), so `^$` is no longer an alternation branch and the empty
string is rejected. -/
theorem c9_claim_counterexample :
    EMPTY_REGEX ∈ ["\\", EMPTY_REGEX] ∧
    verdict_from_list ["\\", EMPTY_REGEX] "" = false := by
  refine ⟨by decide, by decide⟩

/-- C9 (amended): for the fallback list — and more generally any pattern
list containing `^$` whose members each compile individually — the
classifier accepts the empty metric name. -/
theorem c9_empty_string_accepted (ps : List String)
    (hmem : EMPTY_REGEX ∈ ps) (hall : ∀ p ∈ ps, (re_compile p).isSome = true) :
    verdict_from_list ps "" = true := by
  obtain ⟨R, hR, hsem⟩ := joinBar_semantics ps (List.ne_nil_of_mem hmem) hall
  unfold verdict_from_list compile_whitelist
  rw [hR]
  simp only
  rw [is_whitelisted_init, hsem ""]
  rw [List.any_eq_true]
  exact ⟨EMPTY_REGEX, hmem, by decide⟩

theorem c9_empty_string_accepted_witness :
    EMPTY_REGEX ∈ [EMPTY_REGEX] ∧
    (∀ p ∈ [EMPTY_REGEX], (re_compile p).isSome = true) ∧
    verdict_from_list [EMPTY_REGEX] "" = true :=
  ⟨by decide, by decide, c9_empty_string_accepted [EMPTY_REGEX] (by decide) (by decide)⟩

/-- C3: evaluation of the pass-through detector at the divergence points.
The code's own comment (and the spec) describe it as matching any string
with `.*`/`.+` preceded or followed by whitespace, but the compiled regex
only detects a wildcard *followed* by whitespace at the start of the line:
`"x.* y"` (a `.*` followed by a space, mid-line) is classified safe, while
`". x"` (a lone dot before a space, no wildcard token at all) is classified
unsafe.  The policy halves of the claim do hold: `.*` is excluded when
pass-through is disallowed and kept (compiling) when allowed. -/
theorem c3_detector_divergence :
    _is_allowed_regex false "x.* y" = true ∧
    _is_allowed_regex false ". x" = false ∧
    _is_allowed_regex false ".*" = false ∧
    _is_allowed_regex false ".+" = false ∧
    _is_allowed_regex false "x .*" = false ∧
    _is_allowed_regex true ".*" = true ∧
    (∀ cok, get_regex_list false cok (.present [".*"]) =
      .ok ([EMPTY_REGEX], .present [".*"])) ∧
    (∀ cok, get_regex_list true cok (.present [".*"]) =
      .ok (["^.*$"], .present [".*"])) ∧
    (re_compile "^.*$").isSome = true := by
  refine ⟨by decide, by decide, by decide, by decide, by decide, by decide,
    fun _ => rfl, fun _ => rfl, by decide⟩


/-- C1 as stated is false: `|`-joining anchor-wrapped patterns is not
equivalent to full-string matching whenever a line contains a top-level
`|` (the anchors bind to the outer branches), a line ends in a backslash
(the escape captures the closing `$`), or the metric name ends in a
newline (`$` matches before it).  Concretely: from the source line `a|b`
the loader produces `^a|b$`; the first-time verdict on `"ab"` is positive
though no pattern of the list full-string-matches `"ab"`; similarly for
line `a\` on `"a$x"` and line `a` on `"a\n"`. -/
theorem c1_claim_counterexample :
    get_regex_list false true (.present ["a|b"]) = .ok (["^a|b$"], .present ["a|b"]) ∧
    verdict_from_list ["^a|b$"] "ab" = true ∧
    (∀ p ∈ ["^a|b$"], full_string_match p "ab" = false) ∧
    get_regex_list false true (.present ["a\\"]) = .ok (["^a\\$"], .present ["a\\"]) ∧
    verdict_from_list ["^a\\$"] "a$x" = true ∧
    full_string_match "^a\\$" "a$x" = false ∧
    get_regex_list false true (.present ["a"]) = .ok (["^a$"], .present ["a"]) ∧
    verdict_from_list ["^a$"] "a\n" = true ∧
    full_string_match "^a$" "a\n" = false := by
  refine ⟨rfl, by decide, by decide, rfl, by decide, by decide, rfl, by decide, by decide⟩

/-- C1 (amended): for every pattern list the loader produces from lines
that contain no `|` and do not end in a backslash, and every metric name
not ending in a newline, the joined matcher compiles and the first-time
verdict is positive iff some pattern of the list matches the name as a
full string. -/
theorem c1_verdict_iff_full_string_match (pta cok : Bool) (content : List String)
    (m : String)
    (hlines : ∀ l ∈ content,
      '|' ∉ (pyStrip l).data ∧ (pyStrip l).data.getLast? ≠ some '\\')
    (hm : m.data.getLast? ≠ some '\n') :
    ∃ L R, get_regex_list pta cok (.present content) = .ok (L, .present content) ∧
      compile_whitelist L = some R ∧
      ((is_whitelisted (Whitelist.init R true) m true).1 = true ↔
        ∃ p ∈ L, full_string_match p m = true) := by
  refine ⟨_filter_valid_regexes pta (content.map pyStrip), ?_⟩
  have hne := filter_valid_ne_nil pta (content.map pyStrip)
  have hall : ∀ p ∈ _filter_valid_regexes pta (content.map pyStrip),
      (re_compile p).isSome = true := fun p hp => (loader_mem hp).1
  obtain ⟨R, hR, hsem⟩ := joinBar_semantics _ hne hall
  have hperp : ∀ p ∈ _filter_valid_regexes pta (content.map pyStrip),
      re_match_str p m = full_string_match p m := by
    intro p hp
    obtain ⟨hcomp, hform⟩ := loader_mem hp
    obtain ⟨r_p, hr_p⟩ : ∃ r, re_compile p = some r := by
      cases hc : re_compile p with
      | none => rw [hc] at hcomp; simp at hcomp
      | some r => exact ⟨r, rfl⟩
    have hequiv : reMatch r_p m = reFullmatch r_p m := by
      rcases hform with hfb | ⟨l, hl, hform⟩
      · rw [hfb] at hr_p
        exact decorated_match_iff_full hr_p (by simp) (by simp) m hm
      · rw [hform] at hr_p
        exact decorated_match_iff_full hr_p (hlines l hl).1 (hlines l hl).2 m hm
    rw [re_match_str, full_string_match, hr_p]
    exact hequiv
  refine ⟨R, loader_present pta cok content, hR, ?_⟩
  rw [is_whitelisted_init, hsem m, List.any_eq_true]
  constructor
  · rintro ⟨p, hp, hmatch⟩
    exact ⟨p, hp, by rw [← hperp p hp]; exact hmatch⟩
  · rintro ⟨p, hp, hmatch⟩
    exact ⟨p, hp, by rw [hperp p hp]; exact hmatch⟩

theorem c1_verdict_iff_full_string_match_witness :
    (∀ l ∈ (["cpu", "mem.."] : List String),
      '|' ∉ (pyStrip l).data ∧ (pyStrip l).data.getLast? ≠ some '\\') ∧
    ("cpu" : String).data.getLast? ≠ some '\n' ∧
    (∃ L R,
      get_regex_list false true (.present ["cpu", "mem.."]) =
        .ok (L, .present ["cpu", "mem.."]) ∧
      compile_whitelist L = some R ∧
      ((is_whitelisted (Whitelist.init R true) "cpu" true).1 = true ↔
        ∃ p ∈ L, full_string_match p "cpu" = true)) :=
  ⟨by decide, by decide,
   c1_verdict_iff_full_string_match false true ["cpu", "mem.."] "cpu"
     (by decide) (by decide)⟩

end CollectdWhitelist
